import Mathlib

/-!
Verification of the mope_game_engine ECS core against its specification.

The definitions below are a shallow embedding of the C++ sources:
  - component_storage<Component> (entity components), component_storage<Relationship>
    and the singleton specialization, from component_manager.hxx;
  - the query/join helpers from query.hxx;
  - game_scene::tick / event_pool from game_scene.cxx / event_pool;
  - game_scene::create_entity / destroy_entity;
  - the collision sweep arithmetic from pong.cxx and collisions.cxx.

Machine integers are modelled as Nat with explicit reduction mod 2^64 where
overflow matters (the entity counter).  std::unordered_map is modelled either
as a function into Option (when the code never iterates it) or as an
association list whose iteration order is the insertion order (the C++
iteration order is unspecified; insertion order is one admissible
determinization).  Real arithmetic (collision times, velocities) is modelled
over the rationals.
-/

namespace MopeECS

/-- entity_id is uint64_t in the source; modelled as Nat (with explicit
mod 2^64 where the counter can overflow). -/
abbrev EntityId := Nat

/-- constexpr auto NoEntity = entity_id{ 0 }. -/
def NoEntity : EntityId := 0

/-! ## Entity component storage

Embeds component_storage<Component> for plain entity components
(dense vector m_data + unordered_map m_index_map from entity to index). -/

/-- A concrete entity component: the struct with its entity field plus its
payload, modelling a Component deriving from entity_component. -/
structure Row (V : Type) where
  entity : EntityId
  val : V
deriving DecidableEq, Repr

/-- component_storage<Component> for a plain entity component:
m_data is the dense vector, idx models m_index_map (a hash map that the code
never iterates, hence a function into Option). -/
structure EntityStorage (V : Type) where
  data : List (Row V)
  idx : EntityId → Option Nat

/-- A default-constructed storage. -/
def EntityStorage.empty (V : Type) : EntityStorage V :=
  { data := [], idx := fun _ => none }

/-- add_or_set: overwrite in place when the entity already has a row,
otherwise push_back and record the new index. -/
def EntityStorage.addOrSet (s : EntityStorage V) (c : Row V) : EntityStorage V :=
  match s.idx c.entity with
  | some i => { s with data := s.data.set i c }
  | none =>
      { data := s.data ++ [c]
        idx := fun e => if e = c.entity then some s.data.length else s.idx e }

/-- remove: swap the row with the last row, repoint the index map entry of the
swapped row (insert-or-assign, as unordered_map operator[] does), pop_back,
then erase the removed entity's map entry.  A no-op when the entity has no
row.  (When the index map holds an out-of-range index the C++ would be
undefined; the List.set model leaves the data unchanged there.  That state is
unreachable from the empty storage.) -/
def EntityStorage.remove (s : EntityStorage V) (e : EntityId) : EntityStorage V :=
  match s.idx e, s.data.getLast? with
  | some i, some last =>
      { data := (s.data.set i last).dropLast
        idx := fun e' =>
          if e' = e then none
          else if e' = last.entity then some i
          else s.idx e' }
  | _, _ => s

/-- get: hash lookup, then a pointer into the dense vector (absent is a null
pointer, modelled as none). -/
def EntityStorage.get (s : EntityStorage V) (e : EntityId) : Option (Row V) :=
  (s.idx e).bind fun i => s.data[i]?

/-- all(): the whole dense vector. -/
def EntityStorage.all (s : EntityStorage V) : List (Row V) :=
  s.data

/-- One operation of the storage interface exercised by C1. -/
inductive EOp (V : Type) where
  | add (c : Row V)
  | rem (e : EntityId)
deriving DecidableEq

/-- Apply one operation. -/
def applyEOp (s : EntityStorage V) : EOp V → EntityStorage V
  | EOp.add c => s.addOrSet c
  | EOp.rem e => s.remove e

/-- Run a sequence of add_or_set / remove operations, oldest first, from the
empty storage. -/
def runEOps (V : Type) (ops : List (EOp V)) : EntityStorage V :=
  ops.foldl applyEOp (EntityStorage.empty V)

/-! ## Relationship component storage (component_storage<Relationship>) -/

/-- A concrete relationship component: owning entity, related entity, payload. -/
structure RRow (V : Type) where
  entity : EntityId
  related_entity : EntityId
  val : V
deriving DecidableEq, Repr

/-- An inner index map, related-entity → dense index.  The C++ uses an
unordered_map; we fix its iteration order to the insertion order and read
entries by position, as the remove loop does. -/
abbrev InnerMap := List (EntityId × Nat)

/-- component_storage<Relationship>: the dense vector plus the outer map
owning-entity → inner map (the outer map is never iterated, hence a function;
a retained-but-cleared owner maps to some []). -/
structure RelStorage (V : Type) where
  data : List (RRow V)
  outer : EntityId → Option InnerMap

def RelStorage.empty (V : Type) : RelStorage V :=
  { data := [], outer := fun _ => none }

/-- unordered_map operator[]: the owner's inner map, empty when absent. -/
def RelStorage.innerOf (s : RelStorage V) (e : EntityId) : InnerMap :=
  (s.outer e).getD []

/-- Inner-map insert-or-assign (operator[] followed by assignment): update the
entry in place when the key exists, append otherwise. -/
def updInner (inner : InnerMap) (r : EntityId) (i : Nat) : InnerMap :=
  if (inner.lookup r).isSome
  then inner.map (fun p => if p.1 = r then (r, i) else p)
  else inner ++ [(r, i)]

/-- Relationship add_or_set: overwrite the row for (entity, related_entity)
in place when present, otherwise push_back and record the index in the
owner's inner map (creating the outer entry when needed). -/
def RelStorage.addOrSet (s : RelStorage V) (c : RRow V) : RelStorage V :=
  match (s.innerOf c.entity).lookup c.related_entity with
  | some i =>
      { data := s.data.set i c
        outer := fun e => if e = c.entity then some (s.innerOf c.entity) else s.outer e }
  | none =>
      { data := s.data ++ [c]
        outer := fun e =>
          if e = c.entity
          then some (s.innerOf c.entity ++ [(c.related_entity, s.data.length)])
          else s.outer e }

/-- m_index_map[m_data[index].entity][m_data[index].related_entity] = index. -/
def RelStorage.repoint (outer : EntityId → Option InnerMap) (own rel : EntityId) (i : Nat) :
    EntityId → Option InnerMap :=
  fun e => if e = own then some (updInner ((outer own).getD []) rel i) else outer e

/-- Exchange the values at two positions of a list (no-op when either is out
of range, which the storage invariant rules out). -/
def listSwap {α : Type} (l : List α) (i j : Nat) : List α :=
  match l[i]?, l[j]? with
  | some a, some b => (l.set i b).set j a
  | _, _ => l

/-- State of the relationship remove loop: the dense vector, all index maps,
and the moving one-past-the-last-live-row bound (data_end). -/
structure RemoveSt (V : Type) where
  data : List (RRow V)
  outer : EntityId → Option InnerMap
  dataEnd : Nat

/-- One iteration of the remove loop for owner E: read the j-th entry of E's
current inner map, swap m_data[index] with *--data_end, and repoint the index
map entry of the row that was just swapped into position index. -/
def removeStep (E : EntityId) (st : RemoveSt V) (j : Nat) : RemoveSt V :=
  match ((st.outer E).getD [])[j]? with
  | none => st
  | some (_, i) =>
      match (listSwap st.data i (st.dataEnd - 1))[i]? with
      | none => st
      | some moved =>
          { data := listSwap st.data i (st.dataEnd - 1)
            outer := RelStorage.repoint st.outer moved.entity moved.related_entity i
            dataEnd := st.dataEnd - 1 }

/-- Relationship remove(E): a no-op when E has no outer entry; otherwise run
the swap-to-the-back loop over E's inner-map entries, erase the tail of the
dense vector, and clear (but keep) E's inner map. -/
def RelStorage.remove (s : RelStorage V) (E : EntityId) : RelStorage V :=
  match s.outer E with
  | none => s
  | some inner =>
      let st := (List.range inner.length).foldl (removeStep E)
        { data := s.data, outer := s.outer, dataEnd := s.data.length }
      { data := st.data.take st.dataEnd
        outer := fun e => if e = E then some [] else st.outer e }

/-- get(entity) for relationship stores: the (possibly empty) sequence of all
rows owned by that entity, read through the inner map. -/
def RelStorage.get (s : RelStorage V) (e : EntityId) : List (RRow V) :=
  ((s.outer e).getD []).filterMap (fun p => s.data[p.2]?)

/-- all(): the whole dense vector. -/
def RelStorage.all (s : RelStorage V) : List (RRow V) :=
  s.data

/-- One operation of the relationship storage interface. -/
inductive ROp (V : Type) where
  | add (c : RRow V)
  | rem (e : EntityId)

def applyROp (s : RelStorage V) : ROp V → RelStorage V
  | ROp.add c => s.addOrSet c
  | ROp.rem e => s.remove e

/-- Run a sequence of relationship add_or_set / remove operations, oldest
first, from the empty storage. -/
def runROps (V : Type) (ops : List (ROp V)) : RelStorage V :=
  ops.foldl applyROp (RelStorage.empty V)

/-- The sequence get(e) would produce from a given outer map and dense vector
(used to track get-stability through the remove loop). -/
def relGetList (outer : EntityId → Option InnerMap) (data : List (RRow V)) (e : EntityId) :
    List (RRow V) :=
  ((outer e).getD []).filterMap (fun p => data[p.2]?)

/-! ## Scene stores and destroy_entity (game_scene) -/

/-- The entity-keyed storages owned by one scene, as driven by
game_scene::destroy_entity through the virtual remove(entity). -/
structure SceneStores (V : Type) where
  entityStores : List (EntityStorage V)
  relStores : List (RelStorage V)

/-- destroy_entity(e): call remove(e) on every registered entity-keyed
storage (plain entity storages and relationship storages alike). -/
def destroyEntity (sc : SceneStores V) (e : EntityId) : SceneStores V :=
  { entityStores := sc.entityStores.map (fun s => s.remove e)
    relStores := sc.relStores.map (fun s => s.remove e) }

/-! ## Singleton component storage (singleton specialization) -/

/-- The std::variant<std::monostate, Component, Component*> slot; an external
pointer is abstracted as an opaque address token. -/
inductive SingletonSlot (V : Type) where
  | mono
  | owned (v : V)
  | external (addr : Nat)
deriving DecidableEq, Repr

/-- add_or_set(T&&): m_data = value. -/
def SingletonSlot.addOrSetVal (_ : SingletonSlot V) (v : V) : SingletonSlot V :=
  SingletonSlot.owned v

/-- add_or_set(Component*): m_data = external pointer. -/
def SingletonSlot.addOrSetExternal (_ : SingletonSlot V) (addr : Nat) : SingletonSlot V :=
  SingletonSlot.external addr

/-- remove(): m_data = std::monostate. -/
def SingletonSlot.removeSlot (_ : SingletonSlot V) : SingletonSlot V :=
  SingletonSlot.mono

/-- get(): the visitor returning null for monostate, a pointer to the owned
value, or the external pointer. -/
def SingletonSlot.getSlot : SingletonSlot V → Option (V ⊕ Nat)
  | SingletonSlot.mono => none
  | SingletonSlot.owned v => some (Sum.inl v)
  | SingletonSlot.external addr => some (Sum.inr addr)

/-! ## Query join (query.hxx) -/

/-- detail::get_queryables_for_entity over a pack of entity-component
requirements: resolve every requirement via get(entity); when all results are
non-null, the tuple of dereferenced results, otherwise nullopt. -/
def getQueryablesForEntity (V : Type) (reqs : List (EntityStorage V)) (e : EntityId) :
    Option (List (Row V)) :=
  let results := reqs.map (fun s => s.get e)
  if results.all Option.isSome then some (results.filterMap id) else none

/-- detail::get_entity_queryables with an entity-component primary: walk the
primary storage's all(), resolve the remaining requirements against each
row's entity, and keep only the fully resolved rows. -/
def getEntityQueryables (V : Type) (primary : EntityStorage V) (rest : List (EntityStorage V)) :
    List (Row V × List (Row V)) :=
  primary.all.filterMap (fun row =>
    (getQueryablesForEntity V rest row.entity).map (fun vs => (row, vs)))

/-- detail::resolve_entity_queryable<related<Relationship, Queryables...>>
with a nonempty nested pack: for each relationship row of the view, resolve
the nested requirements against the related entity and keep the row only when
they all resolve. -/
def resolveRelated (V : Type) (relRows : List (RRow V)) (nested : List (EntityStorage V)) :
    List (RRow V × List (Row V)) :=
  relRows.filterMap (fun rrow =>
    (getQueryablesForEntity V nested rrow.related_entity).map (fun vs => (rrow, vs)))

/-! ## Event dispatch (game_scene::tick, event_pool) -/

/-- An event: a runtime type tag (std::type_index of the event type) plus an
abstract payload. -/
structure Event where
  tag : Nat
  payload : Nat
deriving DecidableEq, Repr

/-- A registered game system: the event type it subscribes to, an identity,
and the events it emits when invoked. -/
structure GameSystem where
  tag : Nat
  sysId : Nat
  emit : Event → List Event

/-- m_game_systems: the map event-type → vector of subscribers, built by
emplace_back at registration time (add_game_system_imp). -/
def buildSystems (regs : List GameSystem) : Nat → List GameSystem :=
  regs.foldl (fun m g => fun t => if t = g.tag then m t ++ [g] else m t) (fun _ => [])

/-- event_pool::process_event: the subscribers invoked for an event, in the
order stored in the vector for its type. -/
def invokedSystems (regs : List GameSystem) (ev : Event) : List Nat :=
  (buildSystems regs ev.tag).map (fun g => g.sysId)

/-- The events pushed while an event is processed: each invoked system's
emissions, in invocation order. -/
def emittedEvents (regs : List GameSystem) (ev : Event) : List Event :=
  ((buildSystems regs ev.tag).map (fun g => g.emit ev)).flatten

/-- The event queue after n iterations of the drain loop in game_scene::tick:
iteration n reads m_events[n] by index (when still in range) and processes
it, appending whatever the invoked systems emit. -/
def queueAfter (regs : List GameSystem) (init : List Event) : Nat → List Event
  | 0 => init
  | n + 1 =>
      let q := queueAfter regs init n
      match q[n]? with
      | some ev => q ++ emittedEvents regs ev
      | none => q

/-! ## Entity creation counter (game_scene::create_entity) -/

/-- 2^64: the modulus of the uint64_t entity counter. -/
def entityIdModulus : Nat := 2 ^ 64

/-- create_entity: return ++m_last_entity (a uint64_t increment, which wraps
modulo 2^64). -/
def createEntityStep (lastEntity : Nat) : Nat :=
  (lastEntity + 1) % entityIdModulus

/-- The value returned by the n-th create_entity call on a fresh scene
(m_last_entity starts at NoEntity = 0 in the constructor). -/
def nthCreatedEntity : Nat → Nat
  | 0 => NoEntity
  | n + 1 => createEntityStep (nthCreatedEntity n)

/-! ## Collision sweep arithmetic (pong.cxx, collisions.cxx)

Real arithmetic is modelled over ℚ; the rationals have no signed zero and no
infinities, so rayBBoxCollision below models the C++ for rays whose velocity
has all three components nonzero (the ±infinity clamping in the C++ then
reduces to plain min/max, and !signbit reduces to 0 ≤ t). -/

/-- A 3-vector over ℚ (mope::vec3d). -/
structure Vec3 where
  x : ℚ
  y : ℚ
  z : ℚ
deriving DecidableEq, Repr

def Vec3.add (a b : Vec3) : Vec3 := ⟨a.x + b.x, a.y + b.y, a.z + b.z⟩

def Vec3.sub (a b : Vec3) : Vec3 := ⟨a.x - b.x, a.y - b.y, a.z - b.z⟩

def Vec3.scale (c : ℚ) (a : Vec3) : Vec3 := ⟨c * a.x, c * a.y, c * a.z⟩

def Vec3.dot (a b : Vec3) : ℚ := a.x * b.x + a.y * b.y + a.z * b.z

def Vec3.hadamardDiv (a b : Vec3) : Vec3 := ⟨a.x / b.x, a.y / b.y, a.z / b.z⟩

/-- copysign(1.0, q) over ℚ (no signed zero: q = 0 gives +1). -/
def sign1 (q : ℚ) : ℚ := if q < 0 then -1 else 1

/-- copysign(mag, sgn) over ℚ. -/
def copysignQ (mag sgn : ℚ) : ℚ := if sgn < 0 then -|mag| else |mag|

structure Ray where
  origin : Vec3
  velocity : Vec3
deriving DecidableEq, Repr

structure BBox where
  anchor : Vec3
  opposite : Vec3
deriving DecidableEq, Repr

structure Collision where
  contact_time : ℚ
  contact_point : Vec3
  contact_normal : Vec3
deriving DecidableEq, Repr

/-- std::max_element over three values: the first maximal value and its
index (later elements replace the current best only when strictly greater). -/
def firstMax3 (a b c : ℚ) : ℚ × Nat :=
  if a < b then (if b < c then (c, 2) else (b, 1)) else (if a < c then (c, 2) else (a, 0))

/-- std::min_element over three values (value only; the index is unused). -/
def firstMin3 (a b c : ℚ) : ℚ :=
  if b < a then (if c < b then c else b) else (if c < a then c else a)

/-- ray_bounding_box_collision (collisions.cxx) for velocities with nonzero
components: slab entry/exit times per axis, entry = max of per-axis minima
(with the first-maximal axis giving the contact normal), exit = min of
per-axis maxima; no collision when entry > exit. -/
def rayBBoxCollision (r : Ray) (bb : BBox) : Option Collision :=
  let tU := (bb.anchor.sub r.origin).hadamardDiv r.velocity
  let tV := (bb.opposite.sub r.origin).hadamardDiv r.velocity
  let m1 := min tU.x tV.x
  let m2 := min tU.y tV.y
  let m3 := min tU.z tV.z
  let w1 := max tU.x tV.x
  let w2 := max tU.y tV.y
  let w3 := max tU.z tV.z
  let tm := firstMax3 m1 m2 m3
  let tw := firstMin3 w1 w2 w3
  if tm.1 > tw then none
  else
    let cp := r.origin.add (Vec3.scale tm.1 r.velocity)
    let nrm :=
      if tm.2 = 0 then Vec3.mk (sign1 (r.origin.x - cp.x)) 0 0
      else if tm.2 = 1 then Vec3.mk 0 (sign1 (r.origin.y - cp.y)) 0
      else Vec3.mk 0 0 (sign1 (r.origin.z - cp.z))
    some { contact_time := tm.1, contact_point := cp, contact_normal := nrm }

/-- axis_aligned_object_collision: pad the target box by the actor's half
size (signed like the target size), cast a ray from the actor's center. -/
def axisAlignedObjectCollision (actorPos actorSize actorVel targetPos targetSize : Vec3) :
    Option Collision :=
  let halfSize := Vec3.scale (1 / 2) actorSize
  let p1 := copysignQ halfSize.x targetSize.x
  let p2 := copysignQ halfSize.y targetSize.y
  let p3 := copysignQ halfSize.z targetSize.z
  let bb : BBox :=
    { anchor := ⟨targetPos.x - p1, targetPos.y - p2, targetPos.z - p3⟩
      opposite := ⟨targetPos.x + targetSize.x + p1, targetPos.y + targetSize.y + p2,
        targetPos.z + targetSize.z + p3⟩ }
  rayBBoxCollision { origin := actorPos.add halfSize, velocity := actorVel } bb

/-- The admission filter in ball_movement::find_collisions:
!std::signbit(contact_time) && contact_time < remaining_time. -/
def collisionAdmitted (remainingTime contactTime : ℚ) : Bool :=
  decide (0 ≤ contactTime) && decide (contactTime < remainingTime)

/-- resolve_collisions re-emits find-collisions with
event.previous_remaining_time - event.collision.contact_time. -/
def nextRemainingTime (previousRemainingTime contactTime : ℚ) : ℚ :=
  previousRemainingTime - contactTime

/-- The velocity update in resolve_collisions: subtract twice the velocity
projected on the contact normal; for an erratic collision only, add the
erratic term to the y component afterwards. -/
def resolveVelocity (v n : Vec3) (erratic : Bool) (erraticTerm : ℚ) : Vec3 :=
  let nv := v.sub (Vec3.scale (2 * v.dot n) n)
  if erratic then { nv with y := nv.y + erraticTerm } else nv

/-- A chain of contact times in the per-tick sweep loop, each admitted by the
filter against the remaining time left by the previous resolution. -/
def admissibleChain (r : ℚ) : List ℚ → Bool
  | [] => true
  | t :: rest => collisionAdmitted r t && admissibleChain (nextRemainingTime r t) rest

/-- The storage invariant: the index map points exactly at the live rows. -/
structure EntityStorage.Inv (s : EntityStorage V) : Prop where
  idx_row : ∀ e i, s.idx e = some i → ∃ r, s.data[i]? = some r ∧ r.entity = e
  row_idx : ∀ i r, s.data[i]? = some r → s.idx r.entity = some i

/-- The relationship storage invariant: inner-map entries point exactly at
the live rows of their owner, and inner keys are distinct. -/
structure RelStorage.Inv (s : RelStorage V) : Prop where
  entry_row : ∀ e l r i, s.outer e = some l → (r, i) ∈ l →
    ∃ row, s.data[i]? = some row ∧ row.entity = e ∧ row.related_entity = r
  row_entry : ∀ i row, s.data[i]? = some row →
    ∃ l, s.outer row.entity = some l ∧ (row.related_entity, i) ∈ l
  keys_nd : ∀ e l, s.outer e = some l → (l.map Prod.fst).Nodup

/-- The invariant of the relationship remove(E) loop over the original
storage s and E's original inner map l₀, after j iterations: the unvisited
entries of E's inner map index exactly the still-live rows of E, every other
owner's map is intact (up to repointing that preserves what get returns),
and the dense vector is the original one reordered. -/
structure RemLoopInv (s : RelStorage V) (E : EntityId) (l₀ : InnerMap)
    (j : Nat) (st : RemoveSt V) : Prop where
  len_eq : st.data.length = s.data.length
  dEnd : st.dataEnd = s.data.length - j
  jle : j ≤ l₀.length
  mem_iff : ∀ row : RRow V, row ∈ st.data ↔ row ∈ s.data
  outer_E : ∃ l, st.outer E = some l ∧ l.map Prod.fst = l₀.map Prod.fst
  unvis : ∀ l, st.outer E = some l → ∀ p r i, j ≤ p → l[p]? = some (r, i) →
    i < st.dataEnd
    ∧ ∃ row, st.data[i]? = some row ∧ row.entity = E ∧ row.related_entity = r
  covered : ∀ l, st.outer E = some l → ∀ i row, st.data[i]? = some row →
    i < st.dataEnd → row.entity = E →
    ∃ p, j ≤ p ∧ l[p]? = some (row.related_entity, i)
  oth_entry : ∀ e l, e ≠ E → st.outer e = some l → ∀ r i, (r, i) ∈ l →
    i < st.dataEnd
    ∧ ∃ row, st.data[i]? = some row ∧ row.entity = e ∧ row.related_entity = r
  oth_row : ∀ i row, st.data[i]? = some row → row.entity ≠ E →
    ∃ l, st.outer row.entity = some l ∧ (row.related_entity, i) ∈ l
  oth_keys : ∀ e, e ≠ E →
    Option.map (List.map Prod.fst) (st.outer e) = Option.map (List.map Prod.fst) (s.outer e)
  oth_get : ∀ e, e ≠ E → relGetList st.outer st.data e = relGetList s.outer s.data e

theorem EntityStorage.Inv.idx_lt {s : EntityStorage V} (hs : s.Inv) {e : EntityId} {i : Nat}
    (h : s.idx e = some i) : i < s.data.length := by
  obtain ⟨r, hr, -⟩ := hs.idx_row e i h
  exact (List.getElem?_eq_some_iff.mp hr).1

theorem EntityStorage.Inv.idx_inj {s : EntityStorage V} (hs : s.Inv) {a b : EntityId} {i : Nat}
    (ha : s.idx a = some i) (hb : s.idx b = some i) : a = b := by
  obtain ⟨r, hr, hra⟩ := hs.idx_row a i ha
  obtain ⟨r', hr', hrb⟩ := hs.idx_row b i hb
  rw [hr] at hr'
  cases hr'
  rw [← hra, ← hrb]

/-- Two distinct live positions hold rows of distinct entities. -/
theorem EntityStorage.Inv.entity_ne {s : EntityStorage V} (hs : s.Inv) {i j : Nat}
    {r r' : Row V} (hi : s.data[i]? = some r) (hj : s.data[j]? = some r')
    (hne : i ≠ j) : r.entity ≠ r'.entity := by
  intro h
  have h1 := hs.row_idx i r hi
  have h2 := hs.row_idx j r' hj
  rw [h] at h1
  rw [h1] at h2
  exact hne (Option.some.inj h2)

theorem EntityStorage.inv_empty (V : Type) : (EntityStorage.empty V).Inv := by
  constructor
  · intro e i h
    simp [EntityStorage.empty] at h
  · intro i r h
    simp [EntityStorage.empty] at h

theorem EntityStorage.Inv.addOrSet {s : EntityStorage V} (hs : s.Inv) (c : Row V) :
    (s.addOrSet c).Inv := by
  unfold EntityStorage.addOrSet
  cases hidx : s.idx c.entity with
  | some i =>
    obtain ⟨r₀, hr₀, hent₀⟩ := hs.idx_row c.entity i hidx
    have hi : i < s.data.length := (List.getElem?_eq_some_iff.mp hr₀).1
    constructor
    · intro e j hj
      by_cases hji : j = i
      · subst hji
        have : e = c.entity := hs.idx_inj hj hidx
        exact ⟨c, by simp [List.getElem?_set_self hi], this.symm⟩
      · obtain ⟨r, hr, hre⟩ := hs.idx_row e j hj
        exact ⟨r, by rw [List.getElem?_set_ne (by omega)]; exact hr, hre⟩
    · intro j r hr
      by_cases hji : j = i
      · subst hji
        rw [List.getElem?_set_self hi] at hr
        cases hr
        exact hidx
      · rw [List.getElem?_set_ne (by omega)] at hr
        exact hs.row_idx j r hr
  | none =>
    constructor
    · intro e j hj
      dsimp only at hj
      by_cases he : e = c.entity
      · subst he
        rw [if_pos rfl] at hj
        cases hj
        exact ⟨c, by simp, rfl⟩
      · rw [if_neg he] at hj
        obtain ⟨r, hr, hre⟩ := hs.idx_row e j hj
        have hjlt : j < s.data.length := (List.getElem?_eq_some_iff.mp hr).1
        exact ⟨r, by rw [List.getElem?_append_left hjlt]; exact hr, hre⟩
    · intro j r hr
      dsimp only
      rcases Nat.lt_trichotomy j s.data.length with hlt | heq | hgt
      · rw [List.getElem?_append_left hlt] at hr
        have := hs.row_idx j r hr
        have hne : r.entity ≠ c.entity := by
          intro h
          rw [h, hidx] at this
          cases this
        rw [if_neg hne]
        exact this
      · subst heq
        rw [List.getElem?_concat_length] at hr
        cases hr
        rw [if_pos rfl]
      · rw [List.getElem?_eq_none (by simp; omega)] at hr
        cases hr

theorem EntityStorage.Inv.remove {s : EntityStorage V} (hs : s.Inv) (e : EntityId) :
    (s.remove e).Inv := by
  unfold EntityStorage.remove
  cases hidx : s.idx e with
  | none =>
    cases s.data.getLast? <;> exact hs
  | some i =>
    obtain ⟨r, hr, hre⟩ := hs.idx_row e i hidx
    obtain ⟨hi, hri⟩ := List.getElem?_eq_some_iff.mp hr
    have hn : 0 < s.data.length := Nat.lt_of_le_of_lt (Nat.zero_le _) hi
    have hlastlt : s.data.length - 1 < s.data.length := by omega
    have hlast : s.data.getLast? = some (s.data[s.data.length - 1]) := by
      rw [List.getLast?_eq_getElem?, List.getElem?_eq_getElem hlastlt]
    rw [hlast]
    set last := s.data[s.data.length - 1] with hlastdef
    have hlastmem : s.data[s.data.length - 1]? = some last := List.getElem?_eq_getElem hlastlt
    have hidxlast : s.idx last.entity = some (s.data.length - 1) :=
      hs.row_idx _ last hlastmem
    constructor
    · intro e' j hj
      dsimp only at hj
      by_cases h1 : e' = e
      · rw [if_pos h1] at hj
        cases hj
      · rw [if_neg h1] at hj
        by_cases h2 : e' = last.entity
        · rw [if_pos h2] at hj
          cases hj
          have hine : i ≠ s.data.length - 1 := by
            intro h
            apply h1
            rw [h2]
            exact hs.idx_inj hidx (h ▸ hidxlast) |>.symm ▸ rfl
          refine ⟨last, ?_, h2.symm⟩
          rw [List.getElem?_dropLast, if_pos (by simp; omega),
            List.getElem?_set_self hi]
        · rw [if_neg h2] at hj
          obtain ⟨r', hr', hre'⟩ := hs.idx_row e' j hj
          have hjlt : j < s.data.length := (List.getElem?_eq_some_iff.mp hr').1
          have hji : j ≠ i := by
            intro h
            exact h1 (hs.idx_inj hj (h ▸ hidx))
          have hjl : j ≠ s.data.length - 1 := by
            intro h
            exact h2 (hs.idx_inj hj (h ▸ hidxlast))
          refine ⟨r', ?_, hre'⟩
          rw [List.getElem?_dropLast, if_pos (by simp; omega),
            List.getElem?_set_ne (by omega)]
          exact hr'
    · intro j r' hr'
      dsimp only
      rw [List.getElem?_dropLast] at hr'
      by_cases hjlt : j < (s.data.set i last).length - 1
      · rw [if_pos hjlt] at hr'
        have hjn : j < s.data.length - 1 := by simpa using hjlt
        by_cases hji : j = i
        · subst hji
          rw [List.getElem?_set_self hi] at hr'
          cases hr'
          have hne : last.entity ≠ e := by
            intro h
            have : s.idx e = some (s.data.length - 1) := h ▸ hidxlast
            rw [hidx] at this
            cases this
            omega
          rw [if_neg hne, if_pos rfl]
        · rw [List.getElem?_set_ne (by omega)] at hr'
          have hrj := hs.row_idx j r' hr'
          have hne : r'.entity ≠ e := by
            intro h
            rw [h, hidx] at hrj
            cases hrj
            exact hji rfl
          have hnl : r'.entity ≠ last.entity := by
            intro h
            rw [h, hidxlast] at hrj
            cases hrj
            omega
          rw [if_neg hne, if_neg hnl]
          exact hrj
      · rw [if_neg hjlt] at hr'
        cases hr'

theorem EntityStorage.Inv.applyEOp {s : EntityStorage V} (hs : s.Inv) (op : EOp V) :
    (applyEOp s op).Inv := by
  cases op with
  | add c => exact hs.addOrSet c
  | rem e => exact hs.remove e

/-- Every state reachable by a sequence of operations satisfies the invariant. -/
theorem runEOps_inv (V : Type) (ops : List (EOp V)) : (runEOps V ops).Inv := by
  suffices h : ∀ s : EntityStorage V, s.Inv → (ops.foldl applyEOp s).Inv from
    h _ (EntityStorage.inv_empty V)
  induction ops with
  | nil => exact fun s hs => hs
  | cons op rest ih => exact fun s hs => ih _ (hs.applyEOp op)

/-- Writing a slot of a list is splicing at that position. -/
theorem list_set_decomp {α : Type} (l : List α) (i : Nat) (a : α) (h : i < l.length) :
    l.set i a = l.take i ++ a :: l.drop (i + 1) := by
  induction l generalizing i with
  | nil => simp at h
  | cons x xs ih =>
    cases i with
    | zero => simp
    | succ n =>
      simp only [List.set_cons_succ, List.take_succ_cons, List.drop_succ_cons,
        List.cons_append]
      rw [ih n (by simpa using h)]

/-- Members of a take are values of small positions. -/
theorem mem_take_pos {α : Type} {l : List α} {k : Nat} {a : α} (h : a ∈ l.take k) :
    ∃ j, j < k ∧ l[j]? = some a := by
  obtain ⟨j, hj⟩ := List.mem_iff_getElem?.mp h
  have hjk : j < k := by
    by_contra hge
    rw [List.getElem?_eq_none (by simp; omega)] at hj
    cases hj
  exact ⟨j, hjk, by rwa [List.getElem?_take_of_lt hjk] at hj⟩

/-- Members of a drop are values of large positions. -/
theorem mem_drop_pos {α : Type} {l : List α} {k : Nat} {a : α} (h : a ∈ l.drop k) :
    ∃ j, k ≤ j ∧ l[j]? = some a := by
  obtain ⟨j, hj⟩ := List.mem_iff_getElem?.mp h
  rw [List.getElem?_drop] at hj
  exact ⟨k + j, by omega, hj⟩

/-- After remove(e), get(e) finds nothing (also when e had no row). -/
theorem EntityStorage.get_remove_self (s : EntityStorage V) (e : EntityId) :
    (s.remove e).get e = none := by
  unfold EntityStorage.remove
  cases hidx : s.idx e with
  | none =>
    cases s.data.getLast? <;> simp [EntityStorage.get, hidx]
  | some i =>
    cases hlast : s.data.getLast? with
    | none =>
      have : s.data = [] := List.getLast?_eq_none_iff.mp hlast
      simp [EntityStorage.get, hidx, this]
    | some last => simp [EntityStorage.get]

/-- After remove(e), every other entity reads exactly what it read before. -/
theorem EntityStorage.get_remove_other {s : EntityStorage V} (hs : s.Inv) {e e' : EntityId}
    (hne : e' ≠ e) : (s.remove e).get e' = s.get e' := by
  unfold EntityStorage.remove
  cases hidx : s.idx e with
  | none => cases s.data.getLast? <;> rfl
  | some i =>
    obtain ⟨r, hr, hre⟩ := hs.idx_row e i hidx
    obtain ⟨hi, hri⟩ := List.getElem?_eq_some_iff.mp hr
    have hlastlt : s.data.length - 1 < s.data.length := by omega
    have hlast : s.data.getLast? = some (s.data[s.data.length - 1]) := by
      rw [List.getLast?_eq_getElem?, List.getElem?_eq_getElem hlastlt]
    rw [hlast]
    set last := s.data[s.data.length - 1] with hlastdef
    have hlastmem : s.data[s.data.length - 1]? = some last := List.getElem?_eq_getElem hlastlt
    have hidxlast : s.idx last.entity = some (s.data.length - 1) := hs.row_idx _ last hlastmem
    simp only [EntityStorage.get]
    rw [if_neg hne]
    by_cases h2 : e' = last.entity
    · rw [if_pos h2]
      have hine : i ≠ s.data.length - 1 := by
        intro h
        apply hne
        rw [h2]
        rw [h, hlastmem] at hr
        rw [Option.some.inj hr]
        exact hre
      rw [h2, hidxlast]
      simp only [Option.some_bind]
      rw [List.getElem?_dropLast, if_pos (by simp; omega), List.getElem?_set_self hi,
        hlastmem]
    · rw [if_neg h2]
      cases hidx' : s.idx e' with
      | none => rfl
      | some j =>
        obtain ⟨r', hr', hre'⟩ := hs.idx_row e' j hidx'
        have hjlt : j < s.data.length := (List.getElem?_eq_some_iff.mp hr').1
        have hji : j ≠ i := fun h => hne (hs.idx_inj hidx' (h ▸ hidx))
        have hjl : j ≠ s.data.length - 1 := fun h => h2 (hs.idx_inj hidx' (h ▸ hidxlast))
        simp only [Option.some_bind]
        rw [List.getElem?_dropLast, if_pos (by simp; omega),
          List.getElem?_set_ne (by omega)]

/-- After remove(e), all() holds exactly the rows of the entities other than e,
up to order. -/
theorem EntityStorage.remove_perm {s : EntityStorage V} (hs : s.Inv) (e : EntityId) :
    List.Perm (s.remove e).data (s.data.filter fun r => r.entity != e) := by
  unfold EntityStorage.remove
  cases hidx : s.idx e with
  | none =>
    have hall : ∀ r ∈ s.data, (r.entity != e) = true := by
      intro r hr
      obtain ⟨j, hj⟩ := List.mem_iff_getElem?.mp hr
      have hrow := hs.row_idx j r hj
      simp only [bne_iff_ne, ne_eq]
      intro h
      rw [h, hidx] at hrow
      cases hrow
    rw [List.filter_eq_self.mpr hall]
  | some i =>
    obtain ⟨r, hr, hre⟩ := hs.idx_row e i hidx
    obtain ⟨hi, hri⟩ := List.getElem?_eq_some_iff.mp hr
    have hlastlt : s.data.length - 1 < s.data.length := by omega
    have hlast : s.data.getLast? = some (s.data[s.data.length - 1]) := by
      rw [List.getLast?_eq_getElem?, List.getElem?_eq_getElem hlastlt]
    rw [hlast]
    set last := s.data[s.data.length - 1] with hlastdef
    have hlastmem : s.data[s.data.length - 1]? = some last := List.getElem?_eq_getElem hlastlt
    have hidxlast : s.idx last.entity = some (s.data.length - 1) := hs.row_idx _ last hlastmem
    have hother : ∀ j r', s.data[j]? = some r' → j ≠ i → (r'.entity != e) = true := by
      intro j r' hj hji
      simp only [bne_iff_ne, ne_eq]
      intro h
      have hthis := hs.row_idx j r' hj
      rw [h, hidx] at hthis
      exact hji (Option.some.inj hthis).symm
    have hdrop1 : s.data.drop (s.data.length - 1) = [last] := by
      rw [List.drop_eq_getElem_cons hlastlt, List.drop_of_length_le (by omega), ← hlastdef]
    have hT : s.data = s.data.take (s.data.length - 1) ++ [last] := by
      conv_lhs => rw [← List.take_append_drop (s.data.length - 1) s.data]
      rw [hdrop1]
    show List.Perm ((s.data.set i last).dropLast) (s.data.filter fun r => r.entity != e)
    by_cases hcase : i = s.data.length - 1
    · have hrlast : last = r := by
        rw [hcase, hlastmem] at hr
        exact Option.some.inj hr
      rw [list_set_decomp _ _ _ hi]
      rw [hcase, List.drop_of_length_le (by omega), List.dropLast_concat]
      conv_rhs => rw [hT]
      rw [List.filter_append]
      have htake : (s.data.take (s.data.length - 1)).filter (fun r => r.entity != e)
          = s.data.take (s.data.length - 1) := by
        apply List.filter_eq_self.mpr
        intro a ha
        obtain ⟨j, hjk, hj⟩ := mem_take_pos ha
        exact hother j a hj (by omega)
      rw [htake]
      have hfail : List.filter (fun r => r.entity != e) [last] = [] := by
        simp [hrlast, hre]
      rw [hfail, List.append_nil]
    · have hin1 : i < s.data.length - 1 := by omega
      set T := s.data.take (s.data.length - 1) with hTdef
      have hTlen : T.length = s.data.length - 1 := by
        rw [hTdef, List.length_take]
        omega
      have hset : s.data.set i last = T.set i last ++ [last] := by
        conv_lhs => rw [hT]
        rw [List.set_append_left _ _ (by omega)]
      rw [hset, List.dropLast_concat]
      have hTi : T[i]? = some r := by
        rw [hTdef, List.getElem?_take_of_lt hin1, hr]
      have hTilt : i < T.length := by omega
      rw [list_set_decomp _ _ _ hTilt]
      conv_rhs => rw [hT]
      rw [List.filter_append]
      have hTdecomp : T = T.take i ++ r :: T.drop (i + 1) := by
        conv_lhs => rw [← List.take_append_drop i T]
        congr 1
        rw [List.drop_eq_getElem_cons hTilt]
        congr 1
        have hTg := List.getElem?_eq_getElem hTilt
        rw [hTi] at hTg
        exact (Option.some.inj hTg).symm
      conv_rhs => rw [hTdecomp]
      rw [List.filter_append]
      have htake2 : (T.take i).filter (fun r => r.entity != e) = T.take i := by
        apply List.filter_eq_self.mpr
        intro a ha
        obtain ⟨j, hjk, hj⟩ := mem_take_pos ha
        rw [hTdef, List.getElem?_take_of_lt (by omega)] at hj
        exact hother j a hj (by omega)
      have hdrop2 : (T.drop (i + 1)).filter (fun r => r.entity != e) = T.drop (i + 1) := by
        apply List.filter_eq_self.mpr
        intro a ha
        obtain ⟨j, hjk, hj⟩ := mem_drop_pos ha
        have hjlt : j < T.length := (List.getElem?_eq_some_iff.mp hj).1
        rw [hTdef, List.getElem?_take_of_lt (by omega)] at hj
        exact hother j a hj (by omega)
      have hlastpass : (last.entity != e) = true := by
        simp only [bne_iff_ne, ne_eq]
        intro h
        rw [h, hidx] at hidxlast
        exact hcase (Option.some.inj hidxlast)
      have hfailr : List.filter (fun r' => r'.entity != e) (r :: T.drop (i + 1))
          = List.filter (fun r' => r'.entity != e) (T.drop (i + 1)) := by
        simp [hre]
      have hfl2 : List.filter (fun r' => r'.entity != e) [last] = [last] := by
        simp [hlastpass]
      rw [htake2, hfailr, hdrop2, hfl2]
      have hgoal : List.Perm (last :: T.drop (i + 1)) (T.drop (i + 1) ++ [last]) := by
        have hp : List.Perm ([last] ++ T.drop (i + 1)) (T.drop (i + 1) ++ [last]) :=
          List.perm_append_comm
        simpa using hp
      have hstep : List.Perm (T.take i ++ last :: T.drop (i + 1))
          (T.take i ++ (T.drop (i + 1) ++ [last])) :=
        List.Perm.append_left _ hgoal
      rw [← List.append_assoc] at hstep
      exact hstep

/-- remove(e) is a no-op when the entity has no row. -/
theorem EntityStorage.remove_absent {s : EntityStorage V} (hs : s.Inv) {e : EntityId}
    (h : s.get e = none) : s.remove e = s := by
  have hidx : s.idx e = none := by
    cases hidx : s.idx e with
    | none => rfl
    | some i =>
      obtain ⟨r, hr, -⟩ := hs.idx_row e i hidx
      rw [EntityStorage.get, hidx] at h
      simp [hr] at h
  unfold EntityStorage.remove
  rw [hidx]

/-- C1: for every sequence of add_or_set/remove operations on an
entity-component storage and every entity e, after remove(e): get(e) returns
absent; get(e') is unchanged for every other entity e'; all() yields exactly
the rows of the entities that were not removed, up to order; and remove(e) on
an entity with no row leaves the storage unchanged. -/
theorem claim_C1_swap_remove_correct (V : Type) (ops : List (EOp V)) (e e' : EntityId)
    (hne : e' ≠ e) :
    ((runEOps V ops).remove e).get e = none
    ∧ ((runEOps V ops).remove e).get e' = (runEOps V ops).get e'
    ∧ List.Perm ((runEOps V ops).remove e).all
        ((runEOps V ops).all.filter fun r => r.entity != e)
    ∧ ((runEOps V ops).get e = none → (runEOps V ops).remove e = runEOps V ops) :=
  ⟨EntityStorage.get_remove_self (runEOps V ops) e,
   EntityStorage.get_remove_other (runEOps_inv V ops) hne,
   EntityStorage.remove_perm (runEOps_inv V ops) e,
   fun h => EntityStorage.remove_absent (runEOps_inv V ops) h⟩

/-- Concrete instance of C1: the storage holding rows for entities 1, 2, 3
after remove(2). -/
theorem claim_C1_swap_remove_correct_witness :
    ((runEOps Nat [EOp.add ⟨1, 10⟩, EOp.add ⟨2, 20⟩, EOp.add ⟨3, 30⟩]).remove 2).get 2 = none
    ∧ ((runEOps Nat [EOp.add ⟨1, 10⟩, EOp.add ⟨2, 20⟩, EOp.add ⟨3, 30⟩]).remove 2).get 1
      = (runEOps Nat [EOp.add ⟨1, 10⟩, EOp.add ⟨2, 20⟩, EOp.add ⟨3, 30⟩]).get 1
    ∧ List.Perm ((runEOps Nat [EOp.add ⟨1, 10⟩, EOp.add ⟨2, 20⟩, EOp.add ⟨3, 30⟩]).remove 2).all
        ((runEOps Nat [EOp.add ⟨1, 10⟩, EOp.add ⟨2, 20⟩, EOp.add ⟨3, 30⟩]).all.filter
          fun r => r.entity != 2)
    ∧ ((runEOps Nat [EOp.add ⟨1, 10⟩, EOp.add ⟨2, 20⟩, EOp.add ⟨3, 30⟩]).get 2 = none
        → (runEOps Nat [EOp.add ⟨1, 10⟩, EOp.add ⟨2, 20⟩, EOp.add ⟨3, 30⟩]).remove 2
          = runEOps Nat [EOp.add ⟨1, 10⟩, EOp.add ⟨2, 20⟩, EOp.add ⟨3, 30⟩]) :=
  claim_C1_swap_remove_correct Nat [EOp.add ⟨1, 10⟩, EOp.add ⟨2, 20⟩, EOp.add ⟨3, 30⟩] 2 1
    (by decide)

/-! ## C9: entity id monotonicity -/

/-- m_last_entity after n create_entity calls is n reduced modulo 2^64. -/
theorem nthCreatedEntity_eq (n : Nat) : nthCreatedEntity n = n % entityIdModulus := by
  induction n with
  | zero =>
    show NoEntity = 0 % entityIdModulus
    rw [Nat.zero_mod]
    rfl
  | succ n ih =>
    show createEntityStep (nthCreatedEntity n) = (n + 1) % entityIdModulus
    rw [ih]
    unfold createEntityStep entityIdModulus
    omega

/-- C9 counterexample: after 2^64 create_entity calls, the uint64_t counter
has wrapped and the call returns the reserved NoEntity sentinel (0), so the
returned value is neither fresh nor nonzero. -/
theorem claim_C9_counterexample : nthCreatedEntity (2 ^ 64) = NoEntity := by
  rw [nthCreatedEntity_eq]
  unfold entityIdModulus NoEntity
  exact Nat.mod_self _

/-- C9 (amended): as long as fewer than 2^64 entities have been created, the
n-th create_entity call returns exactly n, which is strictly greater than
every previously returned value, never the NoEntity sentinel, and never a
previously returned value. -/
theorem claim_C9_create_entity_monotone (n m : Nat) (h1 : 1 ≤ n) (h2 : n < entityIdModulus)
    (h3 : 1 ≤ m) (h4 : m < n) :
    nthCreatedEntity n = n
    ∧ nthCreatedEntity n ≠ NoEntity
    ∧ nthCreatedEntity m < nthCreatedEntity n
    ∧ nthCreatedEntity m ≠ nthCreatedEntity n := by
  have he : ∀ k, k < entityIdModulus → nthCreatedEntity k = k := by
    intro k hk
    rw [nthCreatedEntity_eq]
    exact Nat.mod_eq_of_lt hk
  have hn := he n h2
  have hm := he m (by omega)
  refine ⟨hn, ?_, ?_, ?_⟩
  · rw [hn]
    show n ≠ 0
    omega
  · rw [hn, hm]
    exact h4
  · rw [hn, hm]
    omega

/-- Concrete instance of C9 (amended) at the third and first calls. -/
theorem claim_C9_create_entity_monotone_witness :
    nthCreatedEntity 3 = 3
    ∧ nthCreatedEntity 3 ≠ NoEntity
    ∧ nthCreatedEntity 1 < nthCreatedEntity 3
    ∧ nthCreatedEntity 1 ≠ nthCreatedEntity 3 :=
  claim_C9_create_entity_monotone 3 1 (by decide) (by norm_num [entityIdModulus])
    (by decide) (by decide)

/-! ## C8: singleton replace semantics (storage level) -/

/-- C8 (storage level): setting the singleton twice leaves only the second
value retrievable, and the storage-level remove() makes get() return null.
(The manager-level remove_component() for singletons does not even compile;
see the code_bug record for C8.) -/
theorem claim_C8_singleton_replace (V : Type) (s : SingletonSlot V) (v1 v2 : V)
    (hne : v1 ≠ v2) :
    ((s.addOrSetVal v1).addOrSetVal v2).getSlot = some (Sum.inl v2)
    ∧ ((s.addOrSetVal v1).addOrSetVal v2).getSlot ≠ some (Sum.inl v1)
    ∧ ((s.addOrSetVal v1).removeSlot).getSlot = none := by
  refine ⟨rfl, ?_, rfl⟩
  simp only [SingletonSlot.addOrSetVal, SingletonSlot.getSlot, ne_eq,
    Option.some.injEq, Sum.inl.injEq]
  exact fun h => hne h.symm

/-- Concrete instance of C8 at values 1 and 2. -/
theorem claim_C8_singleton_replace_witness :
    ((SingletonSlot.mono.addOrSetVal 1).addOrSetVal 2).getSlot = some (Sum.inl (2 : Nat))
    ∧ ((SingletonSlot.mono.addOrSetVal 1).addOrSetVal 2).getSlot ≠ some (Sum.inl (1 : Nat))
    ∧ ((SingletonSlot.mono.addOrSetVal (1 : Nat)).removeSlot).getSlot = none :=
  claim_C8_singleton_replace Nat SingletonSlot.mono 1 2 (by decide)

/-! ## C7: collision reflection -/

/-- C7: with zero erratic influence the resolved velocity is exactly
V - 2(V·N)N; for a unit normal this negates the component along N and leaves
the tangential component unchanged; the concrete scenario (500,-100,0)
against the vertical-wall normal (-1,0,0) yields (-500,-100,0); and any
admitted contact time lies in [0, remaining_time). -/
theorem claim_C7_reflection (v n : Vec3) (r t : ℚ) (hunit : n.dot n = 1)
    (hadm : collisionAdmitted r t = true) :
    resolveVelocity v n false 0 = v.sub (Vec3.scale (2 * v.dot n) n)
    ∧ (resolveVelocity v n false 0).dot n = -(v.dot n)
    ∧ (resolveVelocity v n false 0).sub
        (Vec3.scale ((resolveVelocity v n false 0).dot n) n)
      = v.sub (Vec3.scale (v.dot n) n)
    ∧ resolveVelocity ⟨500, -100, 0⟩ ⟨-1, 0, 0⟩ false 0 = ⟨-500, -100, 0⟩
    ∧ (0 ≤ t ∧ t < r) := by
  have hdot : (resolveVelocity v n false 0).dot n = -(v.dot n) := by
    show (v.sub (Vec3.scale (2 * v.dot n) n)).dot n = -(v.dot n)
    simp only [Vec3.sub, Vec3.scale, Vec3.dot] at hunit ⊢
    linear_combination (-2 * (v.x * n.x + v.y * n.y + v.z * n.z)) * hunit
  refine ⟨rfl, hdot, ?_,
    by norm_num [resolveVelocity, Vec3.sub, Vec3.scale, Vec3.dot], ?_⟩
  · rw [hdot]
    show (v.sub (Vec3.scale (2 * v.dot n) n)).sub (Vec3.scale (-(v.dot n)) n)
      = v.sub (Vec3.scale (v.dot n) n)
    simp only [Vec3.sub, Vec3.scale, Vec3.dot, Vec3.mk.injEq]
    refine ⟨by ring, by ring, by ring⟩
  · have hadm2 := hadm
    simp only [collisionAdmitted, Bool.and_eq_true, decide_eq_true_eq] at hadm2
    exact hadm2

/-- Concrete instance of C7 at the spec's scenario. -/
theorem claim_C7_reflection_witness :
    resolveVelocity ⟨500, -100, 0⟩ ⟨-1, 0, 0⟩ false 0
      = Vec3.sub ⟨500, -100, 0⟩
          (Vec3.scale (2 * Vec3.dot ⟨500, -100, 0⟩ ⟨-1, 0, 0⟩) ⟨-1, 0, 0⟩)
    ∧ (resolveVelocity ⟨500, -100, 0⟩ ⟨-1, 0, 0⟩ false 0).dot ⟨-1, 0, 0⟩
      = -(Vec3.dot ⟨500, -100, 0⟩ ⟨-1, 0, 0⟩)
    ∧ (resolveVelocity ⟨500, -100, 0⟩ ⟨-1, 0, 0⟩ false 0).sub
        (Vec3.scale ((resolveVelocity ⟨500, -100, 0⟩ ⟨-1, 0, 0⟩ false 0).dot ⟨-1, 0, 0⟩)
          ⟨-1, 0, 0⟩)
      = Vec3.sub ⟨500, -100, 0⟩
          (Vec3.scale (Vec3.dot ⟨500, -100, 0⟩ ⟨-1, 0, 0⟩) ⟨-1, 0, 0⟩)
    ∧ resolveVelocity ⟨500, -100, 0⟩ ⟨-1, 0, 0⟩ false 0 = ⟨-500, -100, 0⟩
    ∧ ((0 : ℚ) ≤ 0 ∧ (0 : ℚ) < 1) :=
  claim_C7_reflection ⟨500, -100, 0⟩ ⟨-1, 0, 0⟩ 1 0 (by norm_num [Vec3.dot])
    (by norm_num [collisionAdmitted])

/-! ## C6: sweep-and-resolve time budget -/

/-- C6 counterexample: a concrete detected collision with contact_time = 0
(the ball exactly touching the padded collider) passes the admission filter,
and the re-emitted remaining time equals the previous remaining time — the
remaining simulation time does not strictly decrease. -/
theorem claim_C6_counterexample :
    axisAlignedObjectCollision ⟨0, 2, 2⟩ ⟨2, 2, 2⟩ ⟨1, 1, 1⟩ ⟨2, 0, 0⟩ ⟨2, 8, 8⟩
      = some { contact_time := 0, contact_point := ⟨1, 3, 3⟩, contact_normal := ⟨1, 0, 0⟩ }
    ∧ collisionAdmitted 1 0 = true
    ∧ ¬ (nextRemainingTime 1 0 < 1) :=
  ⟨by norm_num [axisAlignedObjectCollision, rayBBoxCollision, copysignQ, Vec3.hadamardDiv,
      Vec3.sub, Vec3.add, Vec3.scale, firstMax3, firstMin3, sign1, min_def, max_def],
   by norm_num [collisionAdmitted],
   by norm_num [nextRemainingTime]⟩

/-- The total admitted contact time of a chain is bounded by the budget. -/
theorem admissibleChain_bound (eps : ℚ) (ts : List ℚ) : ∀ r0 : ℚ, 0 ≤ r0 →
    admissibleChain r0 ts = true → (∀ u ∈ ts, eps ≤ u) →
    (ts.length : ℚ) * eps ≤ r0 := by
  induction ts with
  | nil =>
    intro r0 h0 _ _
    simpa using h0
  | cons t rest ih =>
    intro r0 h0 hchain hlb
    rw [admissibleChain, Bool.and_eq_true] at hchain
    obtain ⟨hadm, hrest⟩ := hchain
    simp only [collisionAdmitted, Bool.and_eq_true, decide_eq_true_eq] at hadm
    have hteps : eps ≤ t := hlb t (List.mem_cons_self t rest)
    have hih := ih (nextRemainingTime r0 t) (by unfold nextRemainingTime; linarith [hadm.2])
      hrest (fun u hu => hlb u (List.mem_cons_of_mem t hu))
    unfold nextRemainingTime at hih
    simp only [List.length_cons]
    push_cast
    linarith

/-- C6 (amended): an admitted contact time lies in [0, remaining); the
resolution consumes exactly the contact time, so the remaining time never
increases and strictly decreases exactly when the contact time is positive;
and any chain of admitted collisions whose contact times are all at least
some eps > 0 has length at most remaining / eps — so sweeps whose contact
times are bounded away from zero terminate. -/
theorem claim_C6_sweep_budget (r t : ℚ) (ts : List ℚ) (r0 eps : ℚ)
    (hadm : collisionAdmitted r t = true) (heps : 0 < eps) (hr0 : 0 ≤ r0)
    (hchain : admissibleChain r0 ts = true) (hlb : ∀ u ∈ ts, eps ≤ u) :
    (0 ≤ t ∧ t < r ∧ nextRemainingTime r t ≤ r ∧ (0 < t → nextRemainingTime r t < r))
    ∧ (ts.length : ℚ) ≤ r0 / eps := by
  simp only [collisionAdmitted, Bool.and_eq_true, decide_eq_true_eq] at hadm
  constructor
  · refine ⟨hadm.1, hadm.2, ?_, ?_⟩
    · unfold nextRemainingTime
      linarith [hadm.1]
    · intro hpos
      unfold nextRemainingTime
      linarith
  · rw [le_div_iff heps]
    exact admissibleChain_bound eps ts r0 hr0 hchain hlb

/-- Concrete instance of C6 (amended): budget 1, two bounces of 1/2 and 1/4,
lower bound 1/4. -/
theorem claim_C6_sweep_budget_witness :
    ((0 : ℚ) ≤ 1 / 2 ∧ (1 / 2 : ℚ) < 1 ∧ nextRemainingTime 1 (1 / 2) ≤ 1
      ∧ ((0 : ℚ) < 1 / 2 → nextRemainingTime 1 (1 / 2) < 1))
    ∧ (([(1 / 2 : ℚ), 1 / 4].length : ℚ) ≤ 1 / (1 / 4)) :=
  claim_C6_sweep_budget 1 (1 / 2) [1 / 2, 1 / 4] 1 (1 / 4)
    (by norm_num [collisionAdmitted]) (by norm_num) (by norm_num)
    (by norm_num [admissibleChain, collisionAdmitted, nextRemainingTime])
    (by
      intro u hu
      simp only [List.mem_cons, List.not_mem_nil, or_false] at hu
      rcases hu with rfl | rfl <;> norm_num)

/-! ## C5: event drain order -/

/-- The per-type subscriber vector built by emplace_back holds exactly the
subscribers of that type, in registration order. -/
theorem buildSystems_eq (regs : List GameSystem) (t : Nat) :
    buildSystems regs t = regs.filter (fun g => g.tag == t) := by
  have key : ∀ (rs : List GameSystem) (m : Nat → List GameSystem),
      (rs.foldl (fun m g => fun u => if u = g.tag then m u ++ [g] else m u) m) t
        = m t ++ rs.filter (fun g => g.tag == t) := by
    intro rs
    induction rs with
    | nil => intro m; simp
    | cons g rest ih =>
      intro m
      simp only [List.foldl_cons]
      rw [ih]
      by_cases ht : t = g.tag
      · rw [if_pos ht]
        rw [List.filter_cons_of_pos (by simp [ht])]
        simp
      · rw [if_neg ht]
        rw [List.filter_cons_of_neg (by simp; exact fun h => ht h.symm)]
  have h0 := key regs (fun _ => [])
  simpa [buildSystems] using h0

/-- Each drain iteration only appends to the queue. -/
theorem queueAfter_succ (regs : List GameSystem) (init : List Event) (n : Nat) :
    ∃ tail, queueAfter regs init (n + 1) = queueAfter regs init n ++ tail := by
  cases h : (queueAfter regs init n)[n]? with
  | some ev => exact ⟨emittedEvents regs ev, by simp [queueAfter, h]⟩
  | none => exact ⟨[], by simp [queueAfter, h]⟩

/-- Between any two points of the drain, the queue has only been appended to. -/
theorem queueAfter_mono (regs : List GameSystem) (init : List Event) {m n : Nat}
    (hmn : m ≤ n) :
    ∃ tail, queueAfter regs init n = queueAfter regs init m ++ tail := by
  induction n with
  | zero =>
    cases Nat.le_zero.mp hmn
    exact ⟨[], by simp⟩
  | succ n ih =>
    rcases Nat.lt_or_ge m (n + 1) with hlt | hge
    · obtain ⟨t1, ht1⟩ := ih (by omega)
      obtain ⟨t2, ht2⟩ := queueAfter_succ regs init n
      exact ⟨t1 ++ t2, by rw [ht2, ht1, List.append_assoc]⟩
    · have : m = n + 1 := by omega
      cases this
      exact ⟨[], by simp⟩

/-- C5: within one tick's drain loop the queue is only ever appended to, so
events are processed in exactly the order they were stored (the loop reads
index n at iteration n, and positions already stored never move); everything
a handler enqueues while event n is processed lands strictly after all events
already in the queue; and for each processed event the subscribed systems are
invoked in registration order. -/
theorem claim_C5_event_drain_fifo (regs : List GameSystem) (init : List Event)
    (m n : Nat) (hmn : m ≤ n) (ev : Event) :
    invokedSystems regs ev = (regs.filter (fun g => g.tag == ev.tag)).map (fun g => g.sysId)
    ∧ (queueAfter regs init n).take (queueAfter regs init m).length = queueAfter regs init m
    ∧ ((queueAfter regs init n)[n]? = some ev →
        queueAfter regs init (n + 1) = queueAfter regs init n ++ emittedEvents regs ev) := by
  refine ⟨?_, ?_, ?_⟩
  · unfold invokedSystems
    rw [buildSystems_eq]
  · obtain ⟨tail, htail⟩ := queueAfter_mono regs init hmn
    rw [htail, List.take_left]
  · intro h
    simp [queueAfter, h]

/-- Concrete instance of C5: one tick event whose handler emits a further
event, which is processed after everything already queued. -/
theorem claim_C5_event_drain_fifo_witness :
    invokedSystems [⟨0, 100, fun _ => [⟨1, 7⟩]⟩, ⟨1, 200, fun _ => []⟩] ⟨1, 7⟩
      = (([⟨0, 100, fun _ => [⟨1, 7⟩]⟩, ⟨1, 200, fun _ => []⟩] : List GameSystem).filter
          (fun g => g.tag == (⟨1, 7⟩ : Event).tag)).map (fun g => g.sysId)
    ∧ (queueAfter [⟨0, 100, fun _ => [⟨1, 7⟩]⟩, ⟨1, 200, fun _ => []⟩] [⟨0, 0⟩] 2).take
        (queueAfter [⟨0, 100, fun _ => [⟨1, 7⟩]⟩, ⟨1, 200, fun _ => []⟩] [⟨0, 0⟩] 1).length
      = queueAfter [⟨0, 100, fun _ => [⟨1, 7⟩]⟩, ⟨1, 200, fun _ => []⟩] [⟨0, 0⟩] 1
    ∧ ((queueAfter [⟨0, 100, fun _ => [⟨1, 7⟩]⟩, ⟨1, 200, fun _ => []⟩] [⟨0, 0⟩] 2)[2]?
          = some ⟨1, 7⟩ →
        queueAfter [⟨0, 100, fun _ => [⟨1, 7⟩]⟩, ⟨1, 200, fun _ => []⟩] [⟨0, 0⟩] 3
          = queueAfter [⟨0, 100, fun _ => [⟨1, 7⟩]⟩, ⟨1, 200, fun _ => []⟩] [⟨0, 0⟩] 2
            ++ emittedEvents [⟨0, 100, fun _ => [⟨1, 7⟩]⟩, ⟨1, 200, fun _ => []⟩] ⟨1, 7⟩) :=
  claim_C5_event_drain_fifo [⟨0, 100, fun _ => [⟨1, 7⟩]⟩, ⟨1, 200, fun _ => []⟩]
    [⟨0, 0⟩] 1 2 (by decide) ⟨1, 7⟩

/-! ## C3/C4: query join filtering -/

/-- get_queryables_for_entity resolves iff every requirement resolves. -/
theorem getQueryablesForEntity_isSome (V : Type) (reqs : List (EntityStorage V))
    (e : EntityId) :
    (getQueryablesForEntity V reqs e).isSome ↔ ∀ s ∈ reqs, (s.get e).isSome := by
  cases h : (reqs.map (fun s => s.get e)).all Option.isSome with
  | true =>
    simp only [getQueryablesForEntity, h, if_true, Option.isSome_some, true_iff]
    intro s hs
    rw [List.all_eq_true] at h
    exact h _ (List.mem_map_of_mem _ hs)
  | false =>
    rw [getQueryablesForEntity]
    simp only [h, Bool.false_eq_true, if_false, Option.isSome_none, Bool.false_eq_true,
      false_iff]
    intro hall
    have : (reqs.map (fun s => s.get e)).all Option.isSome = true := by
      rw [List.all_eq_true]
      intro o ho
      obtain ⟨s, hs, rfl⟩ := List.mem_map.mp ho
      exact hall s hs
    rw [h] at this
    cases this

/-- Under the invariant, get succeeds exactly for entities with a live row. -/
theorem EntityStorage.get_isSome_iff {s : EntityStorage V} (hs : s.Inv) (e : EntityId) :
    (s.get e).isSome ↔ ∃ r ∈ s.data, r.entity = e := by
  unfold EntityStorage.get
  constructor
  · intro h
    cases hidx : s.idx e with
    | none => rw [hidx] at h; simp at h
    | some i =>
      obtain ⟨r, hr, hre⟩ := hs.idx_row e i hidx
      exact ⟨r, List.mem_iff_getElem?.mpr ⟨i, hr⟩, hre⟩
  · rintro ⟨r, hmem, rfl⟩
    obtain ⟨j, hj⟩ := List.mem_iff_getElem?.mp hmem
    rw [hs.row_idx j r hj]
    simp [hj]

/-- Under the invariant, a successful get returns a live row of that entity. -/
theorem EntityStorage.get_mem {s : EntityStorage V} (hs : s.Inv) {e : EntityId} {r : Row V}
    (h : s.get e = some r) : r ∈ s.data ∧ r.entity = e := by
  unfold EntityStorage.get at h
  cases hidx : s.idx e with
  | none => rw [hidx] at h; cases h
  | some i =>
    rw [hidx] at h
    simp only [Option.some_bind] at h
    obtain ⟨r', hr', hre'⟩ := hs.idx_row e i hidx
    rw [h] at hr'
    cases hr'
    exact ⟨List.mem_iff_getElem?.mpr ⟨i, h⟩, hre'⟩

/-- C3: a multi-component query with an entity-component primary yields a
tuple for entity E iff E has the primary component and every further
requested entity component; an entity missing any requested component
(in particular exactly one) contributes no tuple. -/
theorem claim_C3_query_join_filter (V : Type) (ops : List (EOp V))
    (rest : List (EntityStorage V)) (E : EntityId) :
    ((∃ tp ∈ getEntityQueryables V (runEOps V ops) rest, tp.1.entity = E)
      ↔ (((runEOps V ops).get E).isSome ∧ ∀ s ∈ rest, (s.get E).isSome))
    ∧ ((∃ s ∈ rest, s.get E = none) →
        ∀ tp ∈ getEntityQueryables V (runEOps V ops) rest, tp.1.entity ≠ E) := by
  have hs := runEOps_inv V ops
  have hiff : (∃ tp ∈ getEntityQueryables V (runEOps V ops) rest, tp.1.entity = E)
      ↔ (((runEOps V ops).get E).isSome ∧ ∀ s ∈ rest, (s.get E).isSome) := by
    constructor
    · rintro ⟨tp, htp, htpE⟩
      unfold getEntityQueryables at htp
      rw [List.mem_filterMap] at htp
      obtain ⟨row, hrow, hmap⟩ := htp
      rw [Option.map_eq_some'] at hmap
      obtain ⟨vs, hvs, heq⟩ := hmap
      have hrow1 : tp.1 = row := by rw [← heq]
      rw [hrow1] at htpE
      constructor
      · rw [EntityStorage.get_isSome_iff hs]
        exact ⟨row, hrow, htpE⟩
      · intro s hsmem
        have hq : (getQueryablesForEntity V rest row.entity).isSome := by
          rw [hvs]
          rfl
        rw [htpE] at hq
        exact (getQueryablesForEntity_isSome V rest E).mp hq s hsmem
    · rintro ⟨hP, hrest⟩
      obtain ⟨row, hrow⟩ := Option.isSome_iff_exists.mp hP
      obtain ⟨hmem, hent⟩ := EntityStorage.get_mem hs hrow
      have hq : (getQueryablesForEntity V rest E).isSome :=
        (getQueryablesForEntity_isSome V rest E).mpr hrest
      obtain ⟨vs, hvs⟩ := Option.isSome_iff_exists.mp hq
      refine ⟨(row, vs), ?_, hent⟩
      unfold getEntityQueryables
      rw [List.mem_filterMap]
      refine ⟨row, hmem, ?_⟩
      rw [hent, hvs]
      rfl
  refine ⟨hiff, ?_⟩
  rintro ⟨s0, hs0mem, hs0none⟩ tp htp htpE
  have h2 := hiff.mp ⟨tp, htp, htpE⟩
  have h3 := h2.2 s0 hs0mem
  rw [hs0none] at h3
  cases h3

/-- C4: a relationship requirement with nested component requirements keeps a
relationship row iff its related entity has every nested component; a row
whose related entity misses any nested component is filtered out; an owner
with no relationship rows contributes nothing. -/
theorem claim_C4_related_query_filter (V : Type) (ops : List (ROp V)) (E : EntityId)
    (nested : List (EntityStorage V)) :
    (∀ rr ∈ (runROps V ops).get E,
        ((∃ vs, (rr, vs) ∈ resolveRelated V ((runROps V ops).get E) nested)
          ↔ ∀ st ∈ nested, (st.get rr.related_entity).isSome))
    ∧ (∀ rr vs, (rr, vs) ∈ resolveRelated V ((runROps V ops).get E) nested →
        rr ∈ (runROps V ops).get E
        ∧ getQueryablesForEntity V nested rr.related_entity = some vs)
    ∧ ((runROps V ops).get E = [] → resolveRelated V ((runROps V ops).get E) nested = []) := by
  refine ⟨?_, ?_, ?_⟩
  · intro rr hrr
    constructor
    · rintro ⟨vs, hvs⟩
      unfold resolveRelated at hvs
      rw [List.mem_filterMap] at hvs
      obtain ⟨rr2, hmem2, hmap⟩ := hvs
      rw [Option.map_eq_some'] at hmap
      obtain ⟨vs2, hvs2, heq⟩ := hmap
      have hrr2 : rr2 = rr := congrArg Prod.fst heq
      rw [hrr2] at hvs2
      refine (getQueryablesForEntity_isSome V nested rr.related_entity).mp ?_
      rw [hvs2]
      rfl
    · intro hall
      have hq := (getQueryablesForEntity_isSome V nested rr.related_entity).mpr hall
      obtain ⟨vs, hvs⟩ := Option.isSome_iff_exists.mp hq
      refine ⟨vs, ?_⟩
      unfold resolveRelated
      rw [List.mem_filterMap]
      refine ⟨rr, hrr, ?_⟩
      rw [hvs]
      rfl
  · intro rr vs h
    unfold resolveRelated at h
    rw [List.mem_filterMap] at h
    obtain ⟨rr2, hmem, hmap⟩ := h
    rw [Option.map_eq_some'] at hmap
    obtain ⟨vs2, hvs2, heq⟩ := hmap
    have hrr2 : rr2 = rr := congrArg Prod.fst heq
    have hvs2eq : vs2 = vs := congrArg Prod.snd heq
    rw [hrr2] at hmem hvs2
    rw [hvs2eq] at hvs2
    exact ⟨hmem, hvs2⟩
  · intro h
    rw [h]
    rfl

/-! ## C2/C10: relationship storage machinery -/

theorem lookup_mem {l : InnerMap} {k : EntityId} {b : Nat} (h : l.lookup k = some b) :
    (k, b) ∈ l := by
  rw [List.lookup_eq_some_iff] at h
  obtain ⟨l₁, l₂, rfl, -⟩ := h
  exact List.mem_append_right _ (List.mem_cons_self _ _)

theorem mem_lookup_isSome {l : InnerMap} {k : EntityId} {b : Nat} (h : (k, b) ∈ l) :
    (l.lookup k).isSome := by
  rw [List.lookup_isSome_iff]
  exact ⟨(k, b), h, by simp⟩

/-- With distinct keys, the key determines the entry. -/
theorem nodup_fst_val_eq {l : InnerMap} (hnd : (l.map Prod.fst).Nodup) {k : EntityId}
    {b b' : Nat} (h : (k, b) ∈ l) (h' : (k, b') ∈ l) : b = b' := by
  obtain ⟨p, hp⟩ := List.mem_iff_getElem?.mp h
  obtain ⟨p', hp'⟩ := List.mem_iff_getElem?.mp h'
  have hplen : p < l.length := (List.getElem?_eq_some_iff.mp hp).1
  have hkey : (l.map Prod.fst)[p]? = some k := by rw [List.getElem?_map, hp]; rfl
  have hkey' : (l.map Prod.fst)[p']? = some k := by rw [List.getElem?_map, hp']; rfl
  have hpp : p = p' := List.getElem?_inj (by simpa using hplen) hnd (hkey.trans hkey'.symm)
  rw [hpp, hp'] at hp
  cases Option.some.inj hp
  rfl

/-- With distinct keys, an entry position is determined by its key. -/
theorem nodup_fst_pos_eq {l : InnerMap} (hnd : (l.map Prod.fst).Nodup) {k : EntityId}
    {b b' : Nat} {p p' : Nat} (hp : l[p]? = some (k, b)) (hp' : l[p']? = some (k, b')) :
    p = p' := by
  have hplen : p < l.length := (List.getElem?_eq_some_iff.mp hp).1
  have hkey : (l.map Prod.fst)[p]? = some k := by rw [List.getElem?_map, hp]; rfl
  have hkey' : (l.map Prod.fst)[p']? = some k := by rw [List.getElem?_map, hp']; rfl
  exact List.getElem?_inj (by simpa using hplen) hnd (hkey.trans hkey'.symm)

theorem updInner_map_fst {l : InnerMap} {r : EntityId} {i : Nat}
    (h : (l.lookup r).isSome) : (updInner l r i).map Prod.fst = l.map Prod.fst := by
  unfold updInner
  rw [if_pos h, List.map_map]
  apply List.map_congr_left
  intro p _
  by_cases hp : p.1 = r
  · simp [hp]
  · simp [hp]

theorem updInner_getElem {l : InnerMap} {r : EntityId} {i : Nat}
    (h : (l.lookup r).isSome) (p : Nat) :
    (updInner l r i)[p]? = (l[p]?).map (fun q => if q.1 = r then (r, i) else q) := by
  unfold updInner
  rw [if_pos h, List.getElem?_map]

theorem updInner_length {l : InnerMap} {r : EntityId} {i : Nat}
    (h : (l.lookup r).isSome) : (updInner l r i).length = l.length := by
  unfold updInner
  rw [if_pos h, List.length_map]

theorem updInner_mem {l : InnerMap} {r : EntityId} {i : Nat} {q : EntityId × Nat}
    (h : (l.lookup r).isSome) (hq : q ∈ updInner l r i) :
    ∃ q₀ ∈ l, q = if q₀.1 = r then (r, i) else q₀ := by
  unfold updInner at hq
  rw [if_pos h] at hq
  obtain ⟨q₀, hq₀, hmap⟩ := List.mem_map.mp hq
  exact ⟨q₀, hq₀, hmap.symm⟩

theorem updInner_mem_of {l : InnerMap} {r : EntityId} {i : Nat} {q : EntityId × Nat}
    (h : (l.lookup r).isSome) (hq : q ∈ l) :
    (if q.1 = r then ((r, i) : EntityId × Nat) else q) ∈ updInner l r i := by
  unfold updInner
  rw [if_pos h]
  exact List.mem_map_of_mem _ hq

theorem listSwap_length {α : Type} (l : List α) (i j : Nat) :
    (listSwap l i j).length = l.length := by
  unfold listSwap
  cases l[i]? <;> cases l[j]? <;> simp

theorem listSwap_getElem_fst {α : Type} {l : List α} {i j : Nat} {a b : α}
    (hi : l[i]? = some a) (hj : l[j]? = some b) : (listSwap l i j)[i]? = some b := by
  unfold listSwap
  rw [hi, hj]
  by_cases hij : i = j
  · subst hij
    cases Option.some.inj (hi.symm.trans hj)
    have hlen : i < l.length := (List.getElem?_eq_some_iff.mp hi).1
    rw [List.getElem?_set_self (by simpa using hlen)]
  · have hlen : i < l.length := (List.getElem?_eq_some_iff.mp hi).1
    rw [List.getElem?_set_ne (fun h => hij h.symm), List.getElem?_set_self hlen]

theorem listSwap_getElem_snd {α : Type} {l : List α} {i j : Nat} {a b : α}
    (hi : l[i]? = some a) (hj : l[j]? = some b) : (listSwap l i j)[j]? = some a := by
  unfold listSwap
  rw [hi, hj]
  have hlen : j < l.length := (List.getElem?_eq_some_iff.mp hj).1
  rw [List.getElem?_set_self (by simpa using hlen)]

theorem listSwap_getElem_other {α : Type} {l : List α} {i j k : Nat}
    (hki : k ≠ i) (hkj : k ≠ j) : (listSwap l i j)[k]? = l[k]? := by
  unfold listSwap
  cases l[i]? <;> cases l[j]? <;>
    simp only [List.getElem?_set_ne (fun h => hki h.symm),
      List.getElem?_set_ne (fun h => hkj h.symm)]

theorem listSwap_mem_iff {α : Type} {l : List α} {i j : Nat} {a b : α}
    (hi : l[i]? = some a) (hj : l[j]? = some b) {c : α} :
    c ∈ listSwap l i j ↔ c ∈ l := by
  constructor
  · intro h
    obtain ⟨k, hk⟩ := List.mem_iff_getElem?.mp h
    by_cases hki : k = i
    · subst hki
      rw [listSwap_getElem_fst hi hj] at hk
      cases hk
      exact List.mem_iff_getElem?.mpr ⟨j, hj⟩
    · by_cases hkj : k = j
      · subst hkj
        rw [listSwap_getElem_snd hi hj] at hk
        cases hk
        exact List.mem_iff_getElem?.mpr ⟨i, hi⟩
      · rw [listSwap_getElem_other hki hkj] at hk
        exact List.mem_iff_getElem?.mpr ⟨k, hk⟩
  · intro h
    obtain ⟨k, hk⟩ := List.mem_iff_getElem?.mp h
    by_cases hki : k = i
    · subst hki
      rw [hi] at hk
      cases hk
      exact List.mem_iff_getElem?.mpr ⟨j, listSwap_getElem_snd hi hj⟩
    · by_cases hkj : k = j
      · subst hkj
        rw [hj] at hk
        cases hk
        exact List.mem_iff_getElem?.mpr ⟨i, listSwap_getElem_fst hi hj⟩
      · exact List.mem_iff_getElem?.mpr ⟨k, by rw [listSwap_getElem_other hki hkj]; exact hk⟩

/-- Two filterMaps agree when the lists agree position by position up to the
functions. -/
theorem filterMap_eq_positions {α β : Type} (f g : α → Option β) :
    ∀ (l' l : List α), l'.length = l.length →
      (∀ (q : Nat) (a' a : α), l'[q]? = some a' → l[q]? = some a → f a' = g a) →
      l'.filterMap f = l.filterMap g := by
  intro l'
  induction l' with
  | nil =>
    intro l hlen _
    cases l with
    | nil => rfl
    | cons x xs => cases hlen
  | cons a' t' ih =>
    intro l hlen hq
    cases l with
    | nil => cases hlen
    | cons a t =>
      have hhead : f a' = g a := hq 0 a' a (by simp) (by simp)
      have htail : t'.filterMap f = t.filterMap g := by
        apply ih t (by simpa using hlen)
        intro q b' b hb' hb
        exact hq (q + 1) b' b (by simpa using hb') (by simpa using hb)
      rw [List.filterMap_cons, List.filterMap_cons, hhead, htail]

theorem RelStorage.Inv.entry_lt {s : RelStorage V} (hs : s.Inv) {e : EntityId} {l : InnerMap}
    {r : EntityId} {i : Nat} (he : s.outer e = some l) (hm : (r, i) ∈ l) :
    i < s.data.length := by
  obtain ⟨row, hrow, -, -⟩ := hs.entry_row e l r i he hm
  exact (List.getElem?_eq_some_iff.mp hrow).1

/-- A lookup hit in innerOf implies the outer entry exists and is innerOf. -/
theorem RelStorage.outer_of_lookup {s : RelStorage V} {e k : EntityId} {i : Nat}
    (h : (s.innerOf e).lookup k = some i) : s.outer e = some (s.innerOf e) := by
  unfold RelStorage.innerOf at h ⊢
  cases ho : s.outer e with
  | none =>
    rw [ho] at h
    simp at h
  | some l => rfl

/-- Membership in get(E) is membership in the dense data with owner E. -/
theorem RelStorage.mem_get {s : RelStorage V} (hs : s.Inv) {row : RRow V} {E : EntityId} :
    row ∈ s.get E ↔ row ∈ s.data ∧ row.entity = E := by
  unfold RelStorage.get
  constructor
  · intro h
    rw [List.mem_filterMap] at h
    obtain ⟨p, hp, hrow⟩ := h
    cases ho : s.outer E with
    | none =>
      rw [ho] at hp
      simp at hp
    | some l =>
      rw [ho] at hp
      simp only [Option.getD_some] at hp
      obtain ⟨row', hrow', hent, -⟩ :=
        hs.entry_row E l p.1 p.2 ho (by rw [Prod.mk.eta]; exact hp)
      rw [hrow] at hrow'
      cases hrow'
      exact ⟨List.mem_iff_getElem?.mpr ⟨p.2, hrow⟩, hent⟩
  · rintro ⟨hmem, hent⟩
    obtain ⟨i, hi⟩ := List.mem_iff_getElem?.mp hmem
    obtain ⟨l, hl, hentry⟩ := hs.row_entry i row hi
    rw [hent] at hl
    rw [List.mem_filterMap]
    refine ⟨(row.related_entity, i), ?_, hi⟩
    rw [hl]
    simpa using hentry

/-- Under the invariant, (owner, related) determines the dense position. -/
theorem RelStorage.Inv.row_unique {s : RelStorage V} (hs : s.Inv) {i j : Nat}
    {row row' : RRow V} (hi : s.data[i]? = some row) (hj : s.data[j]? = some row')
    (hent : row.entity = row'.entity) (hrel : row.related_entity = row'.related_entity) :
    i = j := by
  obtain ⟨l, hl, he⟩ := hs.row_entry i row hi
  obtain ⟨l', hl', he'⟩ := hs.row_entry j row' hj
  rw [hent] at hl
  rw [hl] at hl'
  cases hl'
  have hnd := hs.keys_nd row'.entity l hl
  rw [hrel] at he
  exact nodup_fst_val_eq hnd he he'

theorem RelStorage.rel_inv_empty (V : Type) : (RelStorage.empty V).Inv := by
  constructor
  · intro e l r i he
    cases he
  · intro i row hi
    simp [RelStorage.empty] at hi
  · intro e l he
    cases he

theorem RelStorage.Inv.addOrSet_rel {s : RelStorage V} (hs : s.Inv) (c : RRow V) :
    (s.addOrSet c).Inv := by
  unfold RelStorage.addOrSet
  cases hlk : (s.innerOf c.entity).lookup c.related_entity with
  | some i =>
    have houter : s.outer c.entity = some (s.innerOf c.entity) :=
      RelStorage.outer_of_lookup hlk
    have hmem : (c.related_entity, i) ∈ s.innerOf c.entity := lookup_mem hlk
    obtain ⟨row₀, hrow₀, hent₀, hrel₀⟩ :=
      hs.entry_row c.entity _ c.related_entity i houter hmem
    have hilt : i < s.data.length := (List.getElem?_eq_some_iff.mp hrow₀).1
    constructor
    · intro e l r j he hm
      dsimp only at he
      by_cases hec : e = c.entity
      · rw [if_pos hec] at he
        cases he
        obtain ⟨row', hrow', hent', hrel'⟩ := hs.entry_row c.entity _ r j houter hm
        by_cases hji : j = i
        · subst hji
          rw [hrow₀] at hrow'
          cases hrow'
          refine ⟨c, by rw [List.getElem?_set_self hilt], hec.symm, ?_⟩
          rw [← hrel', hrel₀]
        · exact ⟨row', by rw [List.getElem?_set_ne (by omega)]; exact hrow',
            hent'.trans hec.symm, hrel'⟩
      · rw [if_neg hec] at he
        obtain ⟨row', hrow', hent', hrel'⟩ := hs.entry_row e l r j he hm
        have hji : j ≠ i := by
          intro h
          subst h
          rw [hrow₀] at hrow'
          cases hrow'
          rw [← hent'] at hec
          exact hec hent₀
        exact ⟨row', by rw [List.getElem?_set_ne (by omega)]; exact hrow', hent', hrel'⟩
    · intro j row hj
      dsimp only
      by_cases hji : j = i
      · subst hji
        rw [List.getElem?_set_self hilt] at hj
        cases hj
        rw [if_pos rfl]
        exact ⟨_, rfl, hmem⟩
      · rw [List.getElem?_set_ne (by omega)] at hj
        obtain ⟨l, hl, he⟩ := hs.row_entry j row hj
        by_cases hec : row.entity = c.entity
        · rw [if_pos hec]
          refine ⟨_, rfl, ?_⟩
          rw [hec, houter] at hl
          cases hl
          exact he
        · rw [if_neg hec]
          exact ⟨l, hl, he⟩
    · intro e l he
      dsimp only at he
      by_cases hec : e = c.entity
      · rw [if_pos hec] at he
        cases he
        exact hs.keys_nd c.entity _ houter
      · rw [if_neg hec] at he
        exact hs.keys_nd e l he
  | none =>
    have hfresh : ∀ p ∈ s.innerOf c.entity, c.related_entity ≠ p.1 := by
      intro p hp
      have h2 := List.lookup_eq_none_iff.mp hlk p hp
      simpa using h2
    have hinner : ∀ l₀, s.outer c.entity = some l₀ → s.innerOf c.entity = l₀ := by
      intro l₀ h
      unfold RelStorage.innerOf
      rw [h]
      rfl
    constructor
    · intro e l r j he hm
      dsimp only at he
      by_cases hec : e = c.entity
      · rw [if_pos hec] at he
        cases he
        rw [List.mem_append] at hm
        cases hm with
        | inl hm0 =>
          cases ho : s.outer c.entity with
          | none =>
            unfold RelStorage.innerOf at hm0
            rw [ho] at hm0
            simp at hm0
          | some l₀ =>
            rw [hinner l₀ ho] at hm0
            obtain ⟨row', hrow', hent', hrel'⟩ := hs.entry_row c.entity l₀ r j ho hm0
            have hjlt : j < s.data.length := (List.getElem?_eq_some_iff.mp hrow').1
            exact ⟨row', by rw [List.getElem?_append_left hjlt]; exact hrow',
              hent'.trans hec.symm, hrel'⟩
        | inr hm1 =>
          rw [List.mem_singleton] at hm1
          have hr : r = c.related_entity := congrArg Prod.fst hm1
          have hj : j = s.data.length := congrArg Prod.snd hm1
          subst hj
          refine ⟨c, List.getElem?_concat_length _ _, hec.symm, hr.symm⟩
      · rw [if_neg hec] at he
        obtain ⟨row', hrow', hent', hrel'⟩ := hs.entry_row e l r j he hm
        have hjlt : j < s.data.length := (List.getElem?_eq_some_iff.mp hrow').1
        exact ⟨row', by rw [List.getElem?_append_left hjlt]; exact hrow', hent', hrel'⟩
    · intro j row hj
      dsimp only
      rcases Nat.lt_trichotomy j s.data.length with hlt | heq | hgt
      · rw [List.getElem?_append_left hlt] at hj
        obtain ⟨l, hl, he⟩ := hs.row_entry j row hj
        by_cases hec : row.entity = c.entity
        · rw [if_pos hec]
          refine ⟨_, rfl, ?_⟩
          rw [List.mem_append]
          left
          rw [hec] at hl
          rw [hinner l hl]
          exact he
        · rw [if_neg hec]
          exact ⟨l, hl, he⟩
      · subst heq
        rw [List.getElem?_concat_length] at hj
        cases hj
        rw [if_pos rfl]
        refine ⟨_, rfl, ?_⟩
        rw [List.mem_append]
        right
        simp
      · rw [List.getElem?_eq_none (by simp; omega)] at hj
        cases hj
    · intro e l he
      dsimp only at he
      by_cases hec : e = c.entity
      · rw [if_pos hec] at he
        cases he
        rw [List.map_append]
        have hold : ((s.innerOf c.entity).map Prod.fst).Nodup := by
          unfold RelStorage.innerOf
          cases ho : s.outer c.entity with
          | none => simp
          | some l₀ => simpa using hs.keys_nd c.entity l₀ ho
        refine List.Nodup.append hold (by simp) ?_
        intro a ha hb
        rw [List.map_singleton, List.mem_singleton] at hb
        subst hb
        obtain ⟨p, hp, hpa⟩ := List.mem_map.mp ha
        exact hfresh p hp hpa.symm
      · rw [if_neg hec] at he
        exact hs.keys_nd e l he

/-- get(E) never holds duplicate rows: rows of one owner differ in their
related entity. -/
theorem RelStorage.get_nodup {s : RelStorage V} (hs : s.Inv) (E : EntityId) :
    (s.get E).Nodup := by
  unfold RelStorage.get
  cases ho : s.outer E with
  | none => simp
  | some l =>
    simp only [Option.getD_some]
    have hnd := hs.keys_nd E l ho
    have hpw : List.Pairwise (fun p q : EntityId × Nat => p.1 ≠ q.1) l := by
      rw [← List.pairwise_map]
      exact hnd
    unfold List.Nodup
    rw [List.pairwise_filterMap]
    refine hpw.imp_of_mem ?_
    intro p q hp hq hne rowp hrp rowq hrq
    have hrp' : s.data[p.2]? = some rowp := hrp
    have hrq' : s.data[q.2]? = some rowq := hrq
    obtain ⟨rp, hrp2, -, hrelp⟩ := hs.entry_row E l p.1 p.2 ho (by rw [Prod.mk.eta]; exact hp)
    obtain ⟨rq, hrq2, -, hrelq⟩ := hs.entry_row E l q.1 q.2 ho (by rw [Prod.mk.eta]; exact hq)
    rw [hrp'] at hrp2
    cases hrp2
    rw [hrq'] at hrq2
    cases hrq2
    intro heq
    apply hne
    rw [← hrelp, ← hrelq, heq]

/-- add_or_set makes its row live. -/
theorem RelStorage.addOrSet_mem_self {s : RelStorage V} (hs : s.Inv) (c : RRow V) :
    c ∈ (s.addOrSet c).data := by
  unfold RelStorage.addOrSet
  cases hlk : (s.innerOf c.entity).lookup c.related_entity with
  | some i =>
    show c ∈ s.data.set i c
    have houter := RelStorage.outer_of_lookup hlk
    have hmem := lookup_mem hlk
    have hilt : i < s.data.length := hs.entry_lt houter hmem
    exact List.mem_iff_getElem?.mpr ⟨i, List.getElem?_set_self hilt⟩
  | none =>
    show c ∈ s.data ++ [c]
    simp

/-- add_or_set keeps every row of a different (owner, related) key. -/
theorem RelStorage.addOrSet_mem_preserve {s : RelStorage V} (hs : s.Inv) {cp : RRow V}
    (c : RRow V) (h : cp ∈ s.data)
    (hne : cp.entity ≠ c.entity ∨ cp.related_entity ≠ c.related_entity) :
    cp ∈ (s.addOrSet c).data := by
  obtain ⟨j, hj⟩ := List.mem_iff_getElem?.mp h
  unfold RelStorage.addOrSet
  cases hlk : (s.innerOf c.entity).lookup c.related_entity with
  | some i =>
    show cp ∈ s.data.set i c
    have houter := RelStorage.outer_of_lookup hlk
    have hmem := lookup_mem hlk
    obtain ⟨row₀, hrow₀, hent₀, hrel₀⟩ := hs.entry_row c.entity _ _ i houter hmem
    have hji : j ≠ i := by
      intro hh
      subst hh
      rw [hrow₀] at hj
      cases hj
      rcases hne with h1 | h1
      · exact h1 hent₀
      · exact h1 hrel₀
    exact List.mem_iff_getElem?.mpr ⟨j, by rw [List.getElem?_set_ne (by omega)]; exact hj⟩
  | none =>
    show cp ∈ s.data ++ [c]
    exact List.mem_append_left _ h

/-- The loop invariant holds before the first iteration. -/
theorem remLoopInv_base {s : RelStorage V} (hs : s.Inv) {E : EntityId} {l₀ : InnerMap}
    (hl₀ : s.outer E = some l₀) :
    RemLoopInv s E l₀ 0 ⟨s.data, s.outer, s.data.length⟩ := by
  constructor
  · rfl
  · simp
  · exact Nat.zero_le _
  · intro row
    exact Iff.rfl
  · exact ⟨l₀, hl₀, rfl⟩
  · intro l hl p r i _ hp
    dsimp only at hl ⊢
    rw [hl₀] at hl
    cases hl
    have hm : (r, i) ∈ l₀ := List.mem_iff_getElem?.mpr ⟨p, hp⟩
    obtain ⟨row, hrow, hent, hrel⟩ := hs.entry_row E l₀ r i hl₀ hm
    exact ⟨(List.getElem?_eq_some_iff.mp hrow).1, row, hrow, hent, hrel⟩
  · intro l hl i row hrow _ hent
    dsimp only at hl hrow ⊢
    rw [hl₀] at hl
    cases hl
    obtain ⟨l', hl', he'⟩ := hs.row_entry i row hrow
    rw [hent, hl₀] at hl'
    cases hl'
    obtain ⟨p, hp⟩ := List.mem_iff_getElem?.mp he'
    exact ⟨p, Nat.zero_le _, hp⟩
  · intro e l _ hl r i hm
    dsimp only at hl ⊢
    obtain ⟨row, hrow, hent, hrel⟩ := hs.entry_row e l r i hl hm
    exact ⟨(List.getElem?_eq_some_iff.mp hrow).1, row, hrow, hent, hrel⟩
  · intro i row hrow _
    dsimp only at hrow ⊢
    exact hs.row_entry i row hrow
  · intro e _
    rfl
  · intro e _
    rfl

/-- The loop invariant is preserved by one iteration of the remove loop. -/
theorem remLoopInv_step {s : RelStorage V} (hs : s.Inv) {E : EntityId} {l₀ : InnerMap}
    (hl₀ : s.outer E = some l₀) {j : Nat} {st : RemoveSt V}
    (hinv : RemLoopInv s E l₀ j st) (hjlt : j < l₀.length) :
    RemLoopInv s E l₀ (j + 1) (removeStep E st j) := by
  obtain ⟨l, hl, hkeys⟩ := hinv.outer_E
  have hllen : l.length = l₀.length := by
    have h2 := congrArg List.length hkeys
    simpa using h2
  have hlnd : (l.map Prod.fst).Nodup := by
    rw [hkeys]
    exact hs.keys_nd E l₀ hl₀
  have hjlen : j < l.length := by omega
  have hq : ∃ a b, l[j]? = some (a, b) := by
    rw [List.getElem?_eq_getElem hjlen]
    exact ⟨l[j].1, l[j].2, by rw [Prod.mk.eta]⟩
  obtain ⟨r, i, hq⟩ := hq
  obtain ⟨hilt, row, hrow, hrowE, hrowR⟩ := hinv.unvis l hl j r i (Nat.le_refl j) hq
  have hlen := hinv.len_eq
  have hdE := hinv.dEnd
  have hdpos : 1 ≤ st.dataEnd := by omega
  have hdElt : st.dataEnd - 1 < st.data.length := by omega
  have hlastex : ∃ last, st.data[st.dataEnd - 1]? = some last :=
    ⟨_, List.getElem?_eq_getElem hdElt⟩
  obtain ⟨last, hlast⟩ := hlastex
  have hidE : i ≤ st.dataEnd - 1 := by omega
  have hdfst : (listSwap st.data i (st.dataEnd - 1))[i]? = some last :=
    listSwap_getElem_fst hrow hlast
  have hdsnd : (listSwap st.data i (st.dataEnd - 1))[st.dataEnd - 1]? = some row :=
    listSwap_getElem_snd hrow hlast
  have hdlen : (listSwap st.data i (st.dataEnd - 1)).length = st.data.length :=
    listSwap_length _ _ _
  have hrowlast : i = st.dataEnd - 1 → row = last := by
    intro h
    rw [h, hlast] at hrow
    exact (Option.some.inj hrow).symm
  have huniq : ∀ p p' r1 r2 i', j ≤ p → j ≤ p' → l[p]? = some (r1, i') →
      l[p']? = some (r2, i') → p = p' := by
    intro p p' r1 r2 i' hp hp' h1 h2
    obtain ⟨-, row1, hrow1, -, hrel1⟩ := hinv.unvis l hl p r1 i' hp h1
    obtain ⟨-, row2, hrow2, -, hrel2⟩ := hinv.unvis l hl p' r2 i' hp' h2
    rw [hrow1] at hrow2
    cases hrow2
    have hr12 : r1 = r2 := by rw [← hrel1, ← hrel2]
    subst hr12
    exact nodup_fst_pos_eq hlnd h1 h2
  have hstep : removeStep E st j
      = ({ data := listSwap st.data i (st.dataEnd - 1)
           outer := RelStorage.repoint st.outer last.entity last.related_entity i
           dataEnd := st.dataEnd - 1 } : RemoveSt V) := by
    unfold removeStep
    rw [hl]
    simp only [Option.getD_some]
    rw [hq]
    dsimp only
    rw [hdfst]
  rw [hstep]
  by_cases hme : last.entity = E
  · -- the row at the back is itself owned by E (still pending removal)
    obtain ⟨pL, hpLge, hpL⟩ :=
      hinv.covered l hl (st.dataEnd - 1) last hlast (by omega) hme
    have hlmem : (last.related_entity, st.dataEnd - 1) ∈ l :=
      List.mem_iff_getElem?.mpr ⟨pL, hpL⟩
    have hlook : (l.lookup last.related_entity).isSome := mem_lookup_isSome hlmem
    have houter' : RelStorage.repoint st.outer last.entity last.related_entity i
        = fun e => if e = E then some (updInner l last.related_entity i) else st.outer e := by
      unfold RelStorage.repoint
      rw [hme]
      funext e
      by_cases he : e = E
      · rw [if_pos he, if_pos he, hl]
        rfl
      · rw [if_neg he, if_neg he]
    rw [houter']
    constructor
    · dsimp only
      rw [hdlen, hlen]
    · dsimp only
      omega
    · omega
    · intro row'
      dsimp only
      rw [listSwap_mem_iff hrow hlast]
      exact hinv.mem_iff row'
    · refine ⟨updInner l last.related_entity i, by dsimp only; rw [if_pos rfl], ?_⟩
      rw [updInner_map_fst hlook, hkeys]
    · intro l' hl' p r' i' hp hp'
      dsimp only at hl' hp' ⊢
      rw [if_pos rfl] at hl'
      cases hl'
      rw [updInner_getElem hlook] at hp'
      rw [Option.map_eq_some'] at hp'
      obtain ⟨⟨a, b⟩, hab, hτ⟩ := hp'
      by_cases hkey : a = last.related_entity
      · rw [if_pos (by dsimp only; exact hkey)] at hτ
        have hr' : r' = last.related_entity := (congrArg Prod.fst hτ).symm
        have hi' : i' = i := (congrArg Prod.snd hτ).symm
        have hiNE : i ≠ st.dataEnd - 1 := by
          intro hEq
          have hrl : row = last := hrowlast hEq
          have hrr : r = last.related_entity := by rw [← hrowR, hrl]
          have hpj : p = j := by
            apply nodup_fst_pos_eq hlnd (hkey ▸ hab) (hrr ▸ hq)
          omega
        rw [hr', hi']
        exact ⟨by omega, last, hdfst, hme, rfl⟩
      · rw [if_neg (by dsimp only; exact hkey)] at hτ
        have hr' : r' = a := (congrArg Prod.fst hτ).symm
        have hi' : i' = b := (congrArg Prod.snd hτ).symm
        obtain ⟨hbd, rowb, hrowb, hrbE, hrbR⟩ := hinv.unvis l hl p a b (by omega) hab
        have hbne1 : b ≠ st.dataEnd - 1 := by
          intro hEq
          rw [hEq, hlast] at hrowb
          cases hrowb
          exact hkey (by rw [← hrbR])
        have hbne2 : b ≠ i := by
          intro hEq
          have hpj := huniq j p r a i (Nat.le_refl j) (by omega) hq (hEq ▸ hab)
          omega
        rw [hr', hi']
        exact ⟨by omega, rowb, by rw [listSwap_getElem_other hbne2 hbne1]; exact hrowb,
          hrbE, hrbR⟩
    · intro l' hl' i₂ row₂ hrow₂ hi₂ hent₂
      dsimp only at hl' hrow₂ hi₂ ⊢
      rw [if_pos rfl] at hl'
      cases hl'
      by_cases hii : i₂ = i
      · subst hii
        rw [hdfst] at hrow₂
        cases hrow₂
        have hpLj : pL ≠ j := by
          intro hEq
          rw [hEq, hq] at hpL
          have h2 := congrArg Prod.snd (Option.some.inj hpL)
          dsimp only at h2
          omega
        refine ⟨pL, by omega, ?_⟩
        rw [updInner_getElem hlook, hpL]
        simp
      · have hidd : i₂ ≠ st.dataEnd - 1 := by omega
        rw [listSwap_getElem_other hii hidd] at hrow₂
        obtain ⟨p₂, hp₂ge, hp₂⟩ := hinv.covered l hl i₂ row₂ hrow₂ (by omega) hent₂
        have hp₂j : p₂ ≠ j := by
          intro hEq
          rw [hEq, hq] at hp₂
          have h2 := congrArg Prod.snd (Option.some.inj hp₂)
          dsimp only at h2
          omega
        refine ⟨p₂, by omega, ?_⟩
        rw [updInner_getElem hlook, hp₂]
        have hkne : row₂.related_entity ≠ last.related_entity := by
          intro hEq
          have hpp := nodup_fst_pos_eq hlnd (hEq ▸ hp₂) hpL
          have h3 := hpL.symm.trans (hpp ▸ hp₂)
          have h4 := congrArg Prod.snd (Option.some.inj h3)
          dsimp only at h4
          omega
        simp [hkne]
    · intro e l₂ hne hl₂ r' i' hm
      dsimp only at hl₂ ⊢
      rw [if_neg hne] at hl₂
      obtain ⟨hbd, row', hrow', hent', hrel'⟩ := hinv.oth_entry e l₂ hne hl₂ r' i' hm
      have h1 : i' ≠ i := by
        intro hEq
        rw [hEq, hrow] at hrow'
        cases hrow'
        exact hne (hent'.symm.trans hrowE)
      have h2 : i' ≠ st.dataEnd - 1 := by
        intro hEq
        rw [hEq, hlast] at hrow'
        cases hrow'
        exact hne (hent'.symm.trans hme)
      exact ⟨by omega, row', by rw [listSwap_getElem_other h1 h2]; exact hrow', hent', hrel'⟩
    · intro k row' hrow' hent'
      dsimp only at hrow' ⊢
      by_cases hk1 : k = i
      · subst hk1
        rw [hdfst] at hrow'
        cases hrow'
        exact absurd hme hent'
      · by_cases hk2 : k = st.dataEnd - 1
        · subst hk2
          rw [hdsnd] at hrow'
          cases hrow'
          exact absurd hrowE hent'
        · rw [listSwap_getElem_other hk1 hk2] at hrow'
          obtain ⟨l₂, hl₂, hm₂⟩ := hinv.oth_row k row' hrow' hent'
          refine ⟨l₂, ?_, hm₂⟩
          rw [if_neg hent']
          exact hl₂
    · intro e hne
      dsimp only
      rw [if_neg hne]
      exact hinv.oth_keys e hne
    · intro e hne
      dsimp only
      have hsame : relGetList
          (fun e' => if e' = E then some (updInner l last.related_entity i) else st.outer e')
          (listSwap st.data i (st.dataEnd - 1)) e = relGetList st.outer st.data e := by
        unfold relGetList
        dsimp only
        rw [if_neg hne]
        cases ho : st.outer e with
        | none => rfl
        | some l₂ =>
          simp only [Option.getD_some]
          apply List.filterMap_congr
          intro p hp
          dsimp only
          obtain ⟨hbd, row', hrow', hent', hrel'⟩ :=
            hinv.oth_entry e l₂ hne ho p.1 p.2 (by rw [Prod.mk.eta]; exact hp)
          have h1 : p.2 ≠ i := by
            intro hEq
            rw [hEq, hrow] at hrow'
            cases hrow'
            exact hne (hent'.symm.trans hrowE)
          have h2 : p.2 ≠ st.dataEnd - 1 := by
            intro hEq
            rw [hEq, hlast] at hrow'
            cases hrow'
            exact hne (hent'.symm.trans hme)
          rw [listSwap_getElem_other h1 h2]
      exact hsame.trans (hinv.oth_get e hne)
  · -- the row at the back belongs to another owner
    obtain ⟨l₂, hl₂, hentry₂⟩ := hinv.oth_row (st.dataEnd - 1) last hlast hme
    have hlook₂ : (l₂.lookup last.related_entity).isSome := mem_lookup_isSome hentry₂
    have hInotdE : i ≠ st.dataEnd - 1 := by
      intro hEq
      exact hme (by rw [← hrowlast hEq]; exact hrowE)
    have hl₂nd : (l₂.map Prod.fst).Nodup := by
      have hk := hinv.oth_keys last.entity hme
      rw [hl₂] at hk
      cases ho : s.outer last.entity with
      | none => rw [ho] at hk; cases hk
      | some l₃ =>
        rw [ho] at hk
        have h2 := Option.some.inj hk
        rw [h2]
        exact hs.keys_nd last.entity l₃ ho
    have houter' : RelStorage.repoint st.outer last.entity last.related_entity i
        = fun e => if e = last.entity then some (updInner l₂ last.related_entity i)
          else st.outer e := by
      unfold RelStorage.repoint
      funext e
      by_cases he : e = last.entity
      · rw [if_pos he, if_pos he, hl₂]
        rfl
      · rw [if_neg he, if_neg he]
    rw [houter']
    constructor
    · dsimp only
      rw [hdlen, hlen]
    · dsimp only
      omega
    · omega
    · intro row'
      dsimp only
      rw [listSwap_mem_iff hrow hlast]
      exact hinv.mem_iff row'
    · refine ⟨l, ?_, hkeys⟩
      dsimp only
      rw [if_neg (fun h => hme h.symm), hl]
    · intro l' hl' p r' i' hp hp'
      dsimp only at hl' hp' ⊢
      rw [if_neg (fun h => hme h.symm)] at hl'
      rw [hl] at hl'
      cases hl'
      obtain ⟨hbd, rowb, hrowb, hrbE, hrbR⟩ := hinv.unvis l hl p r' i' (by omega) hp'
      have hbne1 : i' ≠ st.dataEnd - 1 := by
        intro hEq
        rw [hEq, hlast] at hrowb
        cases hrowb
        exact hme hrbE
      have hbne2 : i' ≠ i := by
        intro hEq
        have hpj := huniq j p r r' i (Nat.le_refl j) (by omega) hq (hEq ▸ hp')
        omega
      exact ⟨by omega, rowb, by rw [listSwap_getElem_other hbne2 hbne1]; exact hrowb,
        hrbE, hrbR⟩
    · intro l' hl' i₂ row₂ hrow₂ hi₂ hent₂
      dsimp only at hl' hrow₂ hi₂ ⊢
      rw [if_neg (fun h => hme h.symm)] at hl'
      rw [hl] at hl'
      cases hl'
      by_cases hii : i₂ = i
      · subst hii
        rw [hdfst] at hrow₂
        cases hrow₂
        exact absurd hent₂ hme
      · have hidd : i₂ ≠ st.dataEnd - 1 := by omega
        rw [listSwap_getElem_other hii hidd] at hrow₂
        obtain ⟨p₂, hp₂ge, hp₂⟩ := hinv.covered l hl i₂ row₂ hrow₂ (by omega) hent₂
        have hp₂j : p₂ ≠ j := by
          intro hEq
          rw [hEq, hq] at hp₂
          have h2 := congrArg Prod.snd (Option.some.inj hp₂)
          dsimp only at h2
          omega
        exact ⟨p₂, by omega, hp₂⟩
    · intro e l₃ hne hl₃ r' i' hm
      dsimp only at hl₃ ⊢
      by_cases hel : e = last.entity
      · rw [if_pos hel] at hl₃
        cases hl₃
        obtain ⟨⟨a, b⟩, hab, hτ⟩ := updInner_mem hlook₂ hm
        by_cases hkey : a = last.related_entity
        · rw [if_pos (by dsimp only; exact hkey)] at hτ
          have hr' : r' = last.related_entity := congrArg Prod.fst hτ
          have hi' : i' = i := congrArg Prod.snd hτ
          rw [hr', hi']
          refine ⟨by omega, last, hdfst, hel.symm, rfl⟩
        · rw [if_neg (by dsimp only; exact hkey)] at hτ
          have hr' : r' = a := congrArg Prod.fst hτ
          have hi' : i' = b := congrArg Prod.snd hτ
          obtain ⟨hbd, row', hrow', hent', hrel'⟩ :=
            hinv.oth_entry last.entity l₂ hme hl₂ a b hab
          have h1 : b ≠ i := by
            intro hEq
            rw [hEq, hrow] at hrow'
            cases hrow'
            exact hme (hent'.symm.trans hrowE)
          have h2 : b ≠ st.dataEnd - 1 := by
            intro hEq
            rw [hEq, hlast] at hrow'
            cases hrow'
            exact hkey (by rw [← hrel'])
          rw [hr', hi']
          exact ⟨by omega, row',
            by rw [listSwap_getElem_other h1 h2]; exact hrow', hent'.trans hel.symm, hrel'⟩
      · rw [if_neg hel] at hl₃
        obtain ⟨hbd, row', hrow', hent', hrel'⟩ := hinv.oth_entry e l₃ hne hl₃ r' i' hm
        have h1 : i' ≠ i := by
          intro hEq
          rw [hEq, hrow] at hrow'
          cases hrow'
          exact hne (hent'.symm.trans hrowE)
        have h2 : i' ≠ st.dataEnd - 1 := by
          intro hEq
          rw [hEq, hlast] at hrow'
          cases hrow'
          exact hel (by rw [← hent'])
        exact ⟨by omega, row', by rw [listSwap_getElem_other h1 h2]; exact hrow',
          hent', hrel'⟩
    · intro k row' hrow' hent'
      dsimp only at hrow' ⊢
      by_cases hk1 : k = i
      · rw [hk1] at hrow'
        rw [hdfst] at hrow'
        cases hrow'
        rw [hk1]
        refine ⟨updInner l₂ last.related_entity i, by rw [if_pos rfl], ?_⟩
        have h2 := @updInner_mem_of l₂ last.related_entity i
          (last.related_entity, st.dataEnd - 1) hlook₂ hentry₂
        simpa using h2
      · by_cases hk2 : k = st.dataEnd - 1
        · subst hk2
          rw [hdsnd] at hrow'
          cases hrow'
          exact absurd hrowE hent'
        · rw [listSwap_getElem_other hk1 hk2] at hrow'
          obtain ⟨l₃, hl₃, hm₃⟩ := hinv.oth_row k row' hrow' hent'
          by_cases hel : row'.entity = last.entity
          · rw [hel, hl₂] at hl₃
            cases hl₃
            refine ⟨updInner l₂ last.related_entity i, by rw [hel, if_pos rfl], ?_⟩
            have hkne : row'.related_entity ≠ last.related_entity := by
              intro hEq
              have hvv := nodup_fst_val_eq hl₂nd (hEq ▸ hm₃) hentry₂
              omega
            have h2 := @updInner_mem_of l₂ last.related_entity i
              (row'.related_entity, k) hlook₂ hm₃
            simpa [hkne] using h2
          · refine ⟨l₃, ?_, hm₃⟩
            rw [if_neg hel]
            exact hl₃
    · intro e hne
      dsimp only
      by_cases hel : e = last.entity
      · rw [if_pos hel]
        have hk := hinv.oth_keys e hne
        rw [hel] at hk ⊢
        rw [hl₂] at hk
        rw [Option.map_some'] at hk ⊢
        rw [updInner_map_fst hlook₂]
        exact hk
      · rw [if_neg hel]
        exact hinv.oth_keys e hne
    · intro e hne
      dsimp only
      by_cases hel : e = last.entity
      · subst hel
        have hmid : relGetList
            (fun e' => if e' = last.entity then some (updInner l₂ last.related_entity i)
              else st.outer e')
            (listSwap st.data i (st.dataEnd - 1)) last.entity
            = relGetList st.outer st.data last.entity := by
          unfold relGetList
          dsimp only
          rw [if_pos rfl, hl₂]
          simp only [Option.getD_some]
          apply filterMap_eq_positions _ _ _ _ (updInner_length hlook₂)
          intro q a' a ha' ha
          dsimp only
          rw [updInner_getElem hlook₂, ha] at ha'
          have hτ : a' = if a.1 = last.related_entity then (last.related_entity, i) else a :=
            (Option.some.inj ha').symm
          by_cases hkey : a.1 = last.related_entity
          · rw [if_pos hkey] at hτ
            subst hτ
            have hamem : (last.related_entity, a.2) ∈ l₂ := by
              have h2 := List.mem_iff_getElem?.mpr ⟨q, ha⟩
              rw [← hkey]
              simpa using h2
            have ha2 : a.2 = st.dataEnd - 1 := nodup_fst_val_eq hl₂nd hamem hentry₂
            dsimp only
            rw [hdfst, ha2, hlast]
          · rw [if_neg hkey] at hτ
            rw [hτ]
            have hamem : (a.1, a.2) ∈ l₂ := by
              have h2 := List.mem_iff_getElem?.mpr ⟨q, ha⟩
              simpa using h2
            obtain ⟨hbd, row', hrow', hent', hrel'⟩ :=
              hinv.oth_entry last.entity l₂ hme hl₂ a.1 a.2 hamem
            have h1 : a.2 ≠ i := by
              intro hEq
              rw [hEq, hrow] at hrow'
              cases hrow'
              exact hme (hent'.symm.trans hrowE)
            have h2 : a.2 ≠ st.dataEnd - 1 := by
              intro hEq
              rw [hEq, hlast] at hrow'
              cases hrow'
              exact hkey (by rw [← hrel'])
            rw [listSwap_getElem_other h1 h2]
        exact hmid.trans (hinv.oth_get last.entity hne)
      · have hmid : relGetList
            (fun e' => if e' = last.entity then some (updInner l₂ last.related_entity i)
              else st.outer e')
            (listSwap st.data i (st.dataEnd - 1)) e
            = relGetList st.outer st.data e := by
          unfold relGetList
          dsimp only
          rw [if_neg hel]
          cases ho : st.outer e with
          | none => rfl
          | some l₃ =>
            simp only [Option.getD_some]
            apply List.filterMap_congr
            intro p hp
            dsimp only
            obtain ⟨hbd, row', hrow', hent', hrel'⟩ :=
              hinv.oth_entry e l₃ hne ho p.1 p.2 (by rw [Prod.mk.eta]; exact hp)
            have h1 : p.2 ≠ i := by
              intro hEq
              rw [hEq, hrow] at hrow'
              cases hrow'
              exact hne (hent'.symm.trans hrowE)
            have h2 : p.2 ≠ st.dataEnd - 1 := by
              intro hEq
              rw [hEq, hlast] at hrow'
              cases hrow'
              exact hel (by rw [← hent'])
            rw [listSwap_getElem_other h1 h2]
        exact hmid.trans (hinv.oth_get e hne)

/-- The remove-loop invariant holds after any number j ≤ |l₀| of iterations of
the fold that implements the loop. -/
theorem remLoopInv_fold {s : RelStorage V} (hs : s.Inv) {E : EntityId} {l₀ : InnerMap}
    (hl₀ : s.outer E = some l₀) (j : Nat) :
    j ≤ l₀.length →
    RemLoopInv s E l₀ j ((List.range j).foldl (removeStep E)
      ⟨s.data, s.outer, s.data.length⟩) := by
  induction j with
  | zero =>
    intro _
    simpa using remLoopInv_base hs hl₀
  | succ n ih =>
    intro h
    rw [List.range_succ, List.foldl_append]
    simp only [List.foldl_cons, List.foldl_nil]
    exact remLoopInv_step hs hl₀ (ih (by omega)) (by omega)

/-- After the full loop, the truncate-and-clear final storage satisfies the
relationship-storage invariant. -/
theorem removeFinal_inv {s : RelStorage V} (hs : s.Inv) {E : EntityId} {l₀ : InnerMap}
    (hl₀ : s.outer E = some l₀) {st : RemoveSt V}
    (hK : RemLoopInv s E l₀ l₀.length st) :
    RelStorage.Inv { data := st.data.take st.dataEnd
                     outer := fun e => if e = E then some [] else st.outer e } := by
  constructor
  · intro e l r i hel hm
    dsimp only at hel ⊢
    by_cases he : e = E
    · rw [if_pos he] at hel
      cases hel
      cases hm
    · rw [if_neg he] at hel
      obtain ⟨hlt, row, hrow, hent, hrel⟩ := hK.oth_entry e l he hel r i hm
      exact ⟨row, by rw [List.getElem?_take_of_lt hlt]; exact hrow, hent, hrel⟩
  · intro i row hrow
    dsimp only at hrow ⊢
    have hlen := (List.getElem?_eq_some_iff.mp hrow).1
    rw [List.length_take] at hlen
    have hilt : i < st.dataEnd := lt_of_lt_of_le hlen (min_le_left _ _)
    rw [List.getElem?_take_of_lt hilt] at hrow
    have hentE : row.entity ≠ E := by
      intro hEq
      obtain ⟨l, hl, hkeys⟩ := hK.outer_E
      obtain ⟨p, hpge, hp⟩ := hK.covered l hl i row hrow hilt hEq
      have hleq : l.length = l₀.length := by simpa using congrArg List.length hkeys
      have := (List.getElem?_eq_some_iff.mp hp).1
      omega
    obtain ⟨l, hl, hm⟩ := hK.oth_row i row hrow hentE
    refine ⟨l, ?_, hm⟩
    rw [if_neg hentE]
    exact hl
  · intro e l hel
    dsimp only at hel
    by_cases he : e = E
    · rw [if_pos he] at hel
      cases hel
      simp
    · rw [if_neg he] at hel
      have hk := hK.oth_keys e he
      rw [hel, Option.map_some'] at hk
      cases hso : s.outer e with
      | none =>
        rw [hso] at hk
        simp at hk
      | some l₂ =>
        rw [hso, Option.map_some'] at hk
        have hval := Option.some.inj hk
        rw [hval]
        exact hs.keys_nd e l₂ hso

/-- After the full loop, get(a) of the final storage is unchanged for every
owner a other than the removed one. -/
theorem removeFinal_get_other {s : RelStorage V} (hs : s.Inv) {E : EntityId} {l₀ : InnerMap}
    (hl₀ : s.outer E = some l₀) {st : RemoveSt V}
    (hK : RemLoopInv s E l₀ l₀.length st) (a : EntityId) (ha : a ≠ E) :
    RelStorage.get { data := st.data.take st.dataEnd
                     outer := fun e => if e = E then some [] else st.outer e } a
      = s.get a := by
  unfold RelStorage.get
  dsimp only
  rw [if_neg ha]
  cases hso : st.outer a with
  | none =>
    have hk := hK.oth_keys a ha
    rw [hso] at hk
    cases hs2 : s.outer a with
    | none => rfl
    | some l₂ =>
      rw [hs2, Option.map_some'] at hk
      simp at hk
  | some l₂ =>
    simp only [Option.getD_some]
    have h1 : l₂.filterMap (fun p => (st.data.take st.dataEnd)[p.2]?)
        = l₂.filterMap (fun p => st.data[p.2]?) := by
      apply List.filterMap_congr
      intro p hp
      dsimp only
      obtain ⟨hlt, -⟩ := hK.oth_entry a l₂ ha hso p.1 p.2 (by rw [Prod.mk.eta]; exact hp)
      rw [List.getElem?_take_of_lt hlt]
    rw [h1]
    have h2 := hK.oth_get a ha
    unfold relGetList at h2
    rw [hso] at h2
    simp only [Option.getD_some] at h2
    exact h2

/-- After the full loop, the surviving dense rows are exactly the original
rows of owners other than the removed one. -/
theorem removeFinal_mem_all {s : RelStorage V} (hs : s.Inv) {E : EntityId} {l₀ : InnerMap}
    (hl₀ : s.outer E = some l₀) {st : RemoveSt V}
    (hK : RemLoopInv s E l₀ l₀.length st) (row : RRow V) :
    row ∈ st.data.take st.dataEnd ↔ row ∈ s.data ∧ row.entity ≠ E := by
  constructor
  · intro h
    obtain ⟨k, hk, hkrow⟩ := mem_take_pos h
    have hmem : row ∈ st.data := List.mem_iff_getElem?.mpr ⟨k, hkrow⟩
    refine ⟨(hK.mem_iff row).mp hmem, ?_⟩
    intro hEq
    obtain ⟨l, hl, hkeys⟩ := hK.outer_E
    have hkend : k < st.dataEnd := by
      have hdE := hK.dEnd
      have hlen := hK.len_eq
      omega
    obtain ⟨p, hpge, hp⟩ := hK.covered l hl k row hkrow hkend hEq
    have hleq : l.length = l₀.length := by simpa using congrArg List.length hkeys
    have := (List.getElem?_eq_some_iff.mp hp).1
    omega
  · rintro ⟨hmem, hne⟩
    have hmem' : row ∈ st.data := (hK.mem_iff row).mpr hmem
    obtain ⟨k, hkrow⟩ := List.mem_iff_getElem?.mp hmem'
    obtain ⟨l, hl, hml⟩ := hK.oth_row k row hkrow hne
    obtain ⟨hlt, -⟩ := hK.oth_entry row.entity l hne hl row.related_entity k hml
    exact List.mem_iff_getElem?.mpr ⟨k, by rw [List.getElem?_take_of_lt hlt]; exact hkrow⟩

/-- Relationship remove(E): get(E) finds nothing afterwards (the inner map is
cleared; also holds when E had no outer entry). -/
theorem RelStorage.rel_get_remove_self (s : RelStorage V) (E : EntityId) :
    (s.remove E).get E = [] := by
  unfold RelStorage.remove
  cases ho : s.outer E with
  | none =>
    unfold RelStorage.get
    rw [ho]
    rfl
  | some inner =>
    unfold RelStorage.get
    dsimp only
    rw [if_pos rfl]
    rfl

/-- Relationship remove preserves the storage invariant. -/
theorem RelStorage.Inv.remove_rel {s : RelStorage V} (hs : s.Inv) (E : EntityId) :
    (s.remove E).Inv := by
  unfold RelStorage.remove
  cases ho : s.outer E with
  | none => exact hs
  | some l₀ =>
    exact removeFinal_inv hs ho (remLoopInv_fold hs ho l₀.length (le_refl _))

/-- Relationship remove(E) keeps exactly the rows of other owners in all(). -/
theorem RelStorage.mem_remove_all {s : RelStorage V} (hs : s.Inv) (E : EntityId)
    (row : RRow V) :
    row ∈ (s.remove E).all ↔ row ∈ s.all ∧ row.entity ≠ E := by
  unfold RelStorage.all RelStorage.remove
  cases ho : s.outer E with
  | none =>
    constructor
    · intro h
      refine ⟨h, ?_⟩
      intro hEq
      obtain ⟨k, hk⟩ := List.mem_iff_getElem?.mp h
      obtain ⟨l, hl, -⟩ := hs.row_entry k row hk
      rw [hEq, ho] at hl
      cases hl
    · exact fun h => h.1
  | some l₀ =>
    exact removeFinal_mem_all hs ho (remLoopInv_fold hs ho l₀.length (le_refl _)) row

/-- Relationship remove(E) leaves get(a) unchanged for every other owner a. -/
theorem RelStorage.rel_get_remove_other {s : RelStorage V} (hs : s.Inv) {E a : EntityId}
    (ha : a ≠ E) : (s.remove E).get a = s.get a := by
  unfold RelStorage.remove
  cases ho : s.outer E with
  | none => rfl
  | some l₀ =>
    exact removeFinal_get_other hs ho (remLoopInv_fold hs ho l₀.length (le_refl _)) a ha

/-- Two dense rows agreeing on owner and related entity are the same row
(the inner map holds at most one index per (owner, related) pair). -/
theorem RelStorage.mem_unique {s : RelStorage V} (hs : s.Inv) {row row' : RRow V}
    (h : row ∈ s.data) (h' : row' ∈ s.data)
    (hent : row.entity = row'.entity) (hrel : row.related_entity = row'.related_entity) :
    row = row' := by
  obtain ⟨i, hi⟩ := List.mem_iff_getElem?.mp h
  obtain ⟨j, hj⟩ := List.mem_iff_getElem?.mp h'
  have hij := hs.row_unique hi hj hent hrel
  rw [hij, hj] at hi
  exact (Option.some.inj hi).symm

/-- Each relationship interface operation preserves the invariant. -/
theorem applyROp_inv {s : RelStorage V} (hs : s.Inv) (op : ROp V) : (applyROp s op).Inv := by
  cases op with
  | add c => exact hs.addOrSet_rel c
  | rem e => exact hs.remove_rel e

theorem foldl_applyROp_inv {s : RelStorage V} (hs : s.Inv) (ops : List (ROp V)) :
    (ops.foldl applyROp s).Inv := by
  induction ops generalizing s with
  | nil => exact hs
  | cons op rest ih => exact ih (applyROp_inv hs op)

/-- Every storage reachable by the relationship interface satisfies the
invariant. -/
theorem runROps_inv (V : Type) (ops : List (ROp V)) : (runROps V ops).Inv :=
  foldl_applyROp_inv (RelStorage.rel_inv_empty V) ops

/-- C2 (Relationship multiplicity): on any relationship storage reachable by the
add_or_set/remove interface — (i) after add_or_set of two rows with the same
owner E but different related entities, both rows appear in get(E); (ii) after
add_or_set of two rows with the same owner F AND the same related entity, the
second row appears in get(F), it is the only row of get(F) with that related
entity, and it occurs exactly once (the second overwrites the first); (iii)
after remove(E), get(E) is empty, all() holds exactly the rows owned by other
entities, and get(a) is unchanged for every other owner a. -/
theorem claim_C2_relationship_multiplicity {V : Type} [DecidableEq V]
    (ops : List (ROp V)) (E F a : EntityId) (r1 r2 q1 q2 : RRow V)
    (hr1E : r1.entity = E) (hr2E : r2.entity = E)
    (hrne : r1.related_entity ≠ r2.related_entity)
    (hq1F : q1.entity = F) (hq2F : q2.entity = F)
    (hqrel : q1.related_entity = q2.related_entity)
    (haE : a ≠ E) :
    (r1 ∈ (((runROps V ops).addOrSet r1).addOrSet r2).get E
      ∧ r2 ∈ (((runROps V ops).addOrSet r1).addOrSet r2).get E)
    ∧ (q2 ∈ (((runROps V ops).addOrSet q1).addOrSet q2).get F
      ∧ (∀ row ∈ (((runROps V ops).addOrSet q1).addOrSet q2).get F,
          row.related_entity = q2.related_entity → row = q2)
      ∧ ((((runROps V ops).addOrSet q1).addOrSet q2).get F).count q2 = 1)
    ∧ (((runROps V ops).remove E).get E = []
      ∧ (∀ row : RRow V, row ∈ ((runROps V ops).remove E).all
          ↔ row ∈ (runROps V ops).all ∧ row.entity ≠ E)
      ∧ ((runROps V ops).remove E).get a = (runROps V ops).get a) := by
  have hsI := runROps_inv V ops
  have hs1 : ((runROps V ops).addOrSet r1).Inv := hsI.addOrSet_rel r1
  have hs2 : (((runROps V ops).addOrSet r1).addOrSet r2).Inv := hs1.addOrSet_rel r2
  have ht1 : ((runROps V ops).addOrSet q1).Inv := hsI.addOrSet_rel q1
  have ht2 : (((runROps V ops).addOrSet q1).addOrSet q2).Inv := ht1.addOrSet_rel q2
  refine ⟨⟨?_, ?_⟩, ⟨?_, ?_, ?_⟩, ?_, ?_, ?_⟩
  · exact (RelStorage.mem_get hs2).mpr
      ⟨RelStorage.addOrSet_mem_preserve hs1 r2 (RelStorage.addOrSet_mem_self hsI r1)
        (Or.inr hrne), hr1E⟩
  · exact (RelStorage.mem_get hs2).mpr ⟨RelStorage.addOrSet_mem_self hs1 r2, hr2E⟩
  · exact (RelStorage.mem_get ht2).mpr ⟨RelStorage.addOrSet_mem_self ht1 q2, hq2F⟩
  · intro row hrow hrel
    obtain ⟨hrowd, hrowF⟩ := (RelStorage.mem_get ht2).mp hrow
    exact RelStorage.mem_unique ht2 hrowd (RelStorage.addOrSet_mem_self ht1 q2)
      (hrowF.trans hq2F.symm) hrel
  · exact List.count_eq_one_of_mem (RelStorage.get_nodup ht2 F)
      ((RelStorage.mem_get ht2).mpr ⟨RelStorage.addOrSet_mem_self ht1 q2, hq2F⟩)
  · exact RelStorage.rel_get_remove_self _ E
  · intro row
    exact RelStorage.mem_remove_all hsI E row
  · exact RelStorage.rel_get_remove_other hsI haE

/-- Witness for C2: a concrete storage with rows owned by 1 and 7, the
hypotheses checked by decide, and the theorem applied at that input. -/
theorem claim_C2_relationship_multiplicity_witness :
    ((⟨1, 5, 10⟩ : RRow Nat).entity = 1 ∧ (⟨1, 6, 20⟩ : RRow Nat).entity = 1
      ∧ (⟨1, 5, 10⟩ : RRow Nat).related_entity ≠ (⟨1, 6, 20⟩ : RRow Nat).related_entity
      ∧ (⟨2, 5, 30⟩ : RRow Nat).entity = 2 ∧ (⟨2, 5, 40⟩ : RRow Nat).entity = 2
      ∧ (⟨2, 5, 30⟩ : RRow Nat).related_entity = (⟨2, 5, 40⟩ : RRow Nat).related_entity
      ∧ (7 : EntityId) ≠ 1)
    ∧ (((⟨1, 5, 10⟩ : RRow Nat) ∈
          (((runROps Nat [ROp.add ⟨1, 5, 50⟩, ROp.add ⟨7, 1, 100⟩,
            ROp.add ⟨1, 6, 60⟩]).addOrSet ⟨1, 5, 10⟩).addOrSet ⟨1, 6, 20⟩).get 1
        ∧ (⟨1, 6, 20⟩ : RRow Nat) ∈
          (((runROps Nat [ROp.add ⟨1, 5, 50⟩, ROp.add ⟨7, 1, 100⟩,
            ROp.add ⟨1, 6, 60⟩]).addOrSet ⟨1, 5, 10⟩).addOrSet ⟨1, 6, 20⟩).get 1)
      ∧ ((⟨2, 5, 40⟩ : RRow Nat) ∈
          (((runROps Nat [ROp.add ⟨1, 5, 50⟩, ROp.add ⟨7, 1, 100⟩,
            ROp.add ⟨1, 6, 60⟩]).addOrSet ⟨2, 5, 30⟩).addOrSet ⟨2, 5, 40⟩).get 2
        ∧ (∀ row ∈ (((runROps Nat [ROp.add ⟨1, 5, 50⟩, ROp.add ⟨7, 1, 100⟩,
            ROp.add ⟨1, 6, 60⟩]).addOrSet ⟨2, 5, 30⟩).addOrSet ⟨2, 5, 40⟩).get 2,
            row.related_entity = (⟨2, 5, 40⟩ : RRow Nat).related_entity
              → row = ⟨2, 5, 40⟩)
        ∧ ((((runROps Nat [ROp.add ⟨1, 5, 50⟩, ROp.add ⟨7, 1, 100⟩,
            ROp.add ⟨1, 6, 60⟩]).addOrSet ⟨2, 5, 30⟩).addOrSet ⟨2, 5, 40⟩).get 2).count
            ⟨2, 5, 40⟩ = 1)
      ∧ (((runROps Nat [ROp.add ⟨1, 5, 50⟩, ROp.add ⟨7, 1, 100⟩,
            ROp.add ⟨1, 6, 60⟩]).remove 1).get 1 = []
        ∧ (∀ row : RRow Nat,
            row ∈ ((runROps Nat [ROp.add ⟨1, 5, 50⟩, ROp.add ⟨7, 1, 100⟩,
              ROp.add ⟨1, 6, 60⟩]).remove 1).all
            ↔ row ∈ (runROps Nat [ROp.add ⟨1, 5, 50⟩, ROp.add ⟨7, 1, 100⟩,
              ROp.add ⟨1, 6, 60⟩]).all ∧ row.entity ≠ 1)
        ∧ ((runROps Nat [ROp.add ⟨1, 5, 50⟩, ROp.add ⟨7, 1, 100⟩,
            ROp.add ⟨1, 6, 60⟩]).remove 1).get 7
          = (runROps Nat [ROp.add ⟨1, 5, 50⟩, ROp.add ⟨7, 1, 100⟩,
            ROp.add ⟨1, 6, 60⟩]).get 7)) :=
  ⟨⟨by decide, by decide, by decide, by decide, by decide, by decide, by decide⟩,
    claim_C2_relationship_multiplicity
      [ROp.add ⟨1, 5, 50⟩, ROp.add ⟨7, 1, 100⟩, ROp.add ⟨1, 6, 60⟩] 1 2 7
      ⟨1, 5, 10⟩ ⟨1, 6, 20⟩ ⟨2, 5, 30⟩ ⟨2, 5, 40⟩
      (by decide) (by decide) (by decide) (by decide) (by decide) (by decide) (by decide)⟩

/-- C10 (Dangling related references): destroy_entity(e) maps remove(e) over
every relationship store; in such a store the surviving rows are exactly those
whose owning entity is not e, and get(a) is unchanged for every entity a ≠ e —
in particular a row owned by a whose related_entity field is the destroyed e
stays in all() and remains retrievable through get(a): the engine does not
clean up dangling related-entity references. -/
theorem claim_C10_dangling_related {V : Type} (stores : List (EntityStorage V))
    (ops : List (ROp V)) (rest : List (RelStorage V)) (e a : EntityId) (hae : a ≠ e)
    (row : RRow V) (hrow : row ∈ (runROps V ops).all) (hown : row.entity = a)
    (hrel : row.related_entity = e) :
    (destroyEntity ⟨stores, runROps V ops :: rest⟩ e).relStores[0]?
        = some ((runROps V ops).remove e)
    ∧ (∀ r : RRow V, r ∈ ((runROps V ops).remove e).all
        ↔ r ∈ (runROps V ops).all ∧ r.entity ≠ e)
    ∧ ((runROps V ops).remove e).get a = (runROps V ops).get a
    ∧ row ∈ ((runROps V ops).remove e).all
    ∧ row ∈ ((runROps V ops).remove e).get a := by
  have hsI := runROps_inv V ops
  refine ⟨?_, ?_, ?_, ?_, ?_⟩
  · simp [destroyEntity]
  · intro r
    exact RelStorage.mem_remove_all hsI e r
  · exact RelStorage.rel_get_remove_other hsI hae
  · exact (RelStorage.mem_remove_all hsI e row).mpr ⟨hrow, by rw [hown]; exact hae⟩
  · rw [RelStorage.rel_get_remove_other hsI hae]
    exact (RelStorage.mem_get hsI).mpr ⟨hrow, hown⟩

/-- Witness for C10: a scene with one relationship store holding the rows
(1 → 2) and (2 → 3); destroying entity 2 keeps the dangling row (1 → 2). -/
theorem claim_C10_dangling_related_witness :
    ((1 : EntityId) ≠ 2
      ∧ (⟨1, 2, 10⟩ : RRow Nat) ∈ (runROps Nat [ROp.add ⟨1, 2, 10⟩,
          ROp.add ⟨2, 3, 20⟩]).all
      ∧ (⟨1, 2, 10⟩ : RRow Nat).entity = 1
      ∧ (⟨1, 2, 10⟩ : RRow Nat).related_entity = 2)
    ∧ ((destroyEntity ⟨([] : List (EntityStorage Nat)),
          [runROps Nat [ROp.add ⟨1, 2, 10⟩, ROp.add ⟨2, 3, 20⟩]]⟩ 2).relStores[0]?
        = some ((runROps Nat [ROp.add ⟨1, 2, 10⟩, ROp.add ⟨2, 3, 20⟩]).remove 2)
      ∧ (∀ r : RRow Nat,
          r ∈ ((runROps Nat [ROp.add ⟨1, 2, 10⟩, ROp.add ⟨2, 3, 20⟩]).remove 2).all
          ↔ r ∈ (runROps Nat [ROp.add ⟨1, 2, 10⟩, ROp.add ⟨2, 3, 20⟩]).all
            ∧ r.entity ≠ 2)
      ∧ ((runROps Nat [ROp.add ⟨1, 2, 10⟩, ROp.add ⟨2, 3, 20⟩]).remove 2).get 1
        = (runROps Nat [ROp.add ⟨1, 2, 10⟩, ROp.add ⟨2, 3, 20⟩]).get 1
      ∧ (⟨1, 2, 10⟩ : RRow Nat)
        ∈ ((runROps Nat [ROp.add ⟨1, 2, 10⟩, ROp.add ⟨2, 3, 20⟩]).remove 2).all
      ∧ (⟨1, 2, 10⟩ : RRow Nat)
        ∈ ((runROps Nat [ROp.add ⟨1, 2, 10⟩, ROp.add ⟨2, 3, 20⟩]).remove 2).get 1) :=
  ⟨⟨by decide, by decide, by decide, by decide⟩,
    claim_C10_dangling_related [] [ROp.add ⟨1, 2, 10⟩, ROp.add ⟨2, 3, 20⟩] [] 2 1
      (by decide) ⟨1, 2, 10⟩ (by decide) (by decide) (by decide)⟩

end MopeECS
